import Mathlib

/-!
# Cartesian-product iterator (`cartesian_product::iterator<Containers...>`)

A shallow embedding of `include/product_iterator.hpp` and
`include/product_iterator_impl.hpp`.

* A borrowed container is a `List α`.  The source is generic over `N`
  containers of different element types; here all containers share one element
  type `α` (a sum type recovers heterogeneous examples).
* A `Containers::const_iterator` is a cursor: the sequence it points into and a
  position in it.  `cbegin` is position `0`, `cend` is position `length`, `++`
  adds one, `==` is structural equality and `*` reads the element, which is
  `none` when the position is out of range.
* The three `std::tuple`s of cursors are lists; `std::get<I>(t)` is `std_get I t`
  and `std::get<I>(t) = v` is `List.set`.
* `sizeof...(Containers)` is the length of `current_`.
* `current_tuple_` (a nullable owning pointer) is an `Option`.
-/

namespace cartesian_product

variable {α : Type}

/-- Cursor into a borrowed sequence (`Containers::const_iterator`). -/
structure const_iterator (α : Type) where
  seq : List α
  pos : Nat
deriving DecidableEq, Repr

/-- Singular (default-constructed) cursor. -/
instance : Inhabited (const_iterator α) := ⟨⟨[], 0⟩⟩

/-- Cursor at the first element, `container.cbegin()`. -/
def cbegin (container : List α) : const_iterator α := ⟨container, 0⟩

/-- Cursor one past the last element, `container.cend()`. -/
def cend (container : List α) : const_iterator α := ⟨container, container.length⟩

/-- Pre-increment of a cursor, `++c`. -/
def const_iterator.succ (c : const_iterator α) : const_iterator α := ⟨c.seq, c.pos + 1⟩

/-- Dereference of a cursor, `*c`; `none` when the cursor is out of range. -/
def const_iterator.deref (c : const_iterator α) : Option α := c.seq[c.pos]?

/-- Tuple of cursors, `std::tuple<typename Containers::const_iterator...>`. -/
abbrev iterator_type (α : Type) := List (const_iterator α)

/-- Tuple of element references, one per container. -/
abbrev value_type (α : Type) := List (Option α)

/-- Read of a tuple component, `std::get<I>(t)`. -/
def std_get (I : Nat) (t : iterator_type α) : const_iterator α := t.getD I default

/-- The iterator object: three tuples of cursors and the cached tuple. -/
@[ext]
structure iterator (α : Type) where
  current_ : iterator_type α
  begin_ : iterator_type α
  end_ : iterator_type α
  current_tuple_ : Option (value_type α)
deriving DecidableEq, Repr

namespace iterator

/-- Number of containers, `sizeof...(Containers)`. -/
def size (it : iterator α) : Nat := it.current_.length

/-- Default constructor for `N` containers: singular cursors, no cached tuple. -/
def default_ctor (N : Nat) : iterator α :=
  { current_ := List.replicate N default
    begin_ := List.replicate N default
    end_ := List.replicate N default
    current_tuple_ := none }

/-- Copy constructor `iterator(iterator const& other)`. -/
def copy (other : iterator α) : iterator α :=
  { current_tuple_ := none
    begin_ := other.begin_
    end_ := other.end_
    current_ := other.current_ }

/-- Assignment `operator=`: the cached tuple of the target is released, the
cursors are taken from `other`. -/
def assign (this other : iterator α) : iterator α :=
  let this1 : iterator α :=
    if this.current_tuple_.isSome then { this with current_tuple_ := none } else this
  { this1 with begin_ := other.begin_, end_ := other.end_, current_ := other.current_ }

/-- Method `copy_iterator<I>(container, containers...)`: both overloads store
the cursors of the first container at index `I`; the variadic one then recurses
on the remaining containers. -/
def copy_iterator (I : Nat) : List (List α) → iterator α → iterator α
  | [], this => this
  | [container], this =>
    { this with
      current_ := this.current_.set I (cbegin container)
      begin_ := this.begin_.set I (cbegin container)
      end_ := this.end_.set I (cend container) }
  | container :: c2 :: containers, this =>
    copy_iterator (I + 1) (c2 :: containers)
      { this with
        current_ := this.current_.set I (cbegin container)
        begin_ := this.begin_.set I (cbegin container)
        end_ := this.end_.set I (cend container) }

/-- Constructor `iterator(Containers const&... containers)`. -/
def ctor (containers : List (List α)) : iterator α :=
  copy_iterator 0 containers (default_ctor containers.length)

/-- Method `get_end()`: the end iterator to compare against. -/
def get_end (this : iterator α) : iterator α :=
  let ret := copy this
  let ret := { ret with current_ := this.begin_ }
  { ret with current_ := ret.current_.set 0 (std_get 0 ret.end_) }

/-- Method `advance<I>()`: the `I == 0` overload does nothing; the `I > 0`
overload increments cursor `I-1` and carries into `advance<I-1>` when that
cursor reaches its end, except for `I == 1`. -/
def advance [DecidableEq α] : Nat → iterator α → iterator α
  | 0, this => this
  | I + 1, this =>
    let this1 := { this with current_ := this.current_.set I (std_get I this.current_).succ }
    if std_get I this1.current_ = std_get I this1.end_ then
      if I + 1 = 1 then this1
      else
        advance I { this1 with current_ := this1.current_.set I (std_get I this1.begin_) }
    else this1

/-- Method `increment()` (`operator++`). -/
def increment [DecidableEq α] (this : iterator α) : iterator α :=
  if std_get 0 this.current_ = std_get 0 this.end_ then this
  else
    let this1 := advance this.size this
    if this1.current_tuple_.isSome then { this1 with current_tuple_ := none } else this1

/-- Method `equal(other)` (`operator==`). -/
def equal [DecidableEq α] (this other : iterator α) : Bool :=
  decide (this.current_ = other.current_)

/-- Method `make_value_type(sequence<0, ..., N-1>)`: dereferences every current
cursor. -/
def make_value_type (this : iterator α) : value_type α :=
  (List.range this.size).map (fun S => (std_get S this.current_).deref)

/-- Method `dereference()` (`operator*`): returns the tuple and the iterator
with its (mutable) cache filled. -/
def dereference (this : iterator α) : value_type α × iterator α :=
  match this.current_tuple_ with
  | none =>
    let v := make_value_type this
    (v, { this with current_tuple_ := some v })
  | some v => (v, this)

/-- Method `get<I>()`: the element under cursor `I`, without building the tuple. -/
def get (I : Nat) (this : iterator α) : Option α := (std_get I this.current_).deref

end iterator

/-- Factory `make_iterator(containers...)`. -/
def make_iterator (containers : List (List α)) : iterator α := iterator.ctor containers

/-- The loop of the header's usage example,
`auto end = it.get_end(); for (; it != end; ++it) { *it; }`,
collecting the dereferenced tuples.  `none` when the fuel runs out before the
iterator equals `end`. -/
def for_loop [DecidableEq α] : Nat → iterator α → iterator α → Option (List (value_type α))
  | 0, _, _ => none
  | fuel + 1, end_it, it =>
    if it.equal end_it then some []
    else
      let r := it.dereference
      (for_loop fuel end_it r.2.increment).map (fun vs => r.1 :: vs)

/-- Usage example of the header as a whole program over the given containers. -/
def example_loop [DecidableEq α] (fuel : Nat) (containers : List (List α)) :
    Option (List (value_type α)) :=
  let it := make_iterator containers
  let end_it := it.get_end
  for_loop fuel end_it it

/-- The three tuples of an iterator have the same number of components (they
are instances of one tuple type). -/
def iterator.wf (it : iterator α) : Prop :=
  it.begin_.length = it.current_.length ∧ it.end_.length = it.current_.length

instance (it : iterator α) : Decidable it.wf := by
  unfold iterator.wf
  exact inferInstance

/-- Iterator states a caller can produce through the public interface:
construction from containers, copy construction, assignment, `get_end()`,
`operator++` and `operator*`. -/
inductive Reachable [DecidableEq α] : iterator α → Prop
  | ctor (containers : List (List α)) : Reachable (make_iterator containers)
  | copy {it : iterator α} : Reachable it → Reachable it.copy
  | assign {a b : iterator α} : Reachable a → Reachable b → Reachable (a.assign b)
  | get_end {it : iterator α} : Reachable it → Reachable it.get_end
  | increment {it : iterator α} : Reachable it → Reachable it.increment
  | dereference {it : iterator α} : Reachable it → Reachable it.dereference.2

/-- The cache, when present, is the tuple of elements under the current
cursors. -/
def iterator.cache_ok (it : iterator α) : Prop :=
  ∀ v, it.current_tuple_ = some v → v = it.make_value_type

/-- Once index 0 is at its end, every other cursor is at its begin. -/
def iterator.tail_at_begin (it : iterator α) : Prop :=
  std_get 0 it.current_ = std_get 0 it.end_ →
    ∀ i, 0 < i → i < it.size → std_get i it.current_ = std_get i it.begin_

/-- Index 0 has not reached its end. -/
def iterator.running (it : iterator α) : Prop :=
  std_get 0 it.current_ ≠ std_get 0 it.end_

instance [DecidableEq α] (it : iterator α) : Decidable it.running := by
  unfold iterator.running
  exact inferInstance

/-- The iterator over one more (last) container: `it` extended by a cursor
triple for that container. -/
def iterator.snoc (it : iterator α) (x b e : const_iterator α) : iterator α :=
  { current_ := it.current_ ++ [x]
    begin_ := it.begin_ ++ [b]
    end_ := it.end_ ++ [e]
    current_tuple_ := it.current_tuple_ }

/-- The iterator `it` extended by last container `c` with that cursor at
position `r`. -/
def iterator.snoc_at (it : iterator α) (c : List α) (r : Nat) : iterator α :=
  it.snoc ⟨c, r⟩ (cbegin c) (cend c)

/-- Specification of the emitted order: `N` nested loops, the first sequence
outermost and the last sequence innermost. -/
def nested_loops : List (List α) → List (List α)
  | [] => [[]]
  | c :: cs => c.flatMap (fun x => (nested_loops cs).map (fun t => x :: t))

/-- Iterator states reached from the iterator constructed over `containers` by
`operator++`, `operator*` and `get_end()` (`get<I>()` only reads). -/
inductive ReachableFrom [DecidableEq α] (containers : List (List α)) : iterator α → Prop
  | ctor : ReachableFrom containers (make_iterator containers)
  | increment {it : iterator α} :
      ReachableFrom containers it → ReachableFrom containers it.increment
  | dereference {it : iterator α} :
      ReachableFrom containers it → ReachableFrom containers it.dereference.2
  | get_end {it : iterator α} :
      ReachableFrom containers it → ReachableFrom containers it.get_end

/-- Every current cursor points into the sequence of its begin and end cursors,
at a position from begin to end inclusive; the end cursor is one past the last
element. -/
def iterator.in_range (it : iterator α) : Prop :=
  ∀ i, i < it.size →
    (std_get i it.begin_).seq = (std_get i it.end_).seq ∧
    (std_get i it.current_).seq = (std_get i it.end_).seq ∧
    (std_get i it.end_).pos = (std_get i it.end_).seq.length ∧
    (std_get i it.begin_).pos ≤ (std_get i it.current_).pos ∧
    (std_get i it.current_).pos ≤ (std_get i it.end_).pos

/-- Every current cursor at an index `i ≥ 1` is strictly before its end. -/
def iterator.inner_before_end (it : iterator α) : Prop :=
  ∀ i, 1 ≤ i → i < it.size → (std_get i it.current_).pos < (std_get i it.end_).pos

/-- The control flow of `advance<I>()` with a check at every `++`: `true` when
each cursor that `advance<I>()` increments is not at its end when incremented. -/
def iterator.advance_ok [DecidableEq α] : Nat → iterator α → Bool
  | 0, _ => true
  | I + 1, this =>
    decide (std_get I this.current_ ≠ std_get I this.end_) &&
    (let this1 := { this with current_ := this.current_.set I (std_get I this.current_).succ }
     if std_get I this1.current_ = std_get I this1.end_ then
       if I + 1 = 1 then true
       else
         iterator.advance_ok I
           { this1 with current_ := this1.current_.set I (std_get I this1.begin_) }
     else true)

/-- The control flow of `increment()` with the check of `advance_ok`. -/
def iterator.increment_ok [DecidableEq α] (this : iterator α) : Bool :=
  if std_get 0 this.current_ = std_get 0 this.end_ then true
  else iterator.advance_ok this.size this

/-! ## Tuple component access -/

theorem std_get_set_self (I : Nat) (t : iterator_type α) (v : const_iterator α)
    (h : I < t.length) : std_get I (t.set I v) = v := by
  simp [std_get, List.getD_eq_getElem?_getD, h]

theorem std_get_set_ne (I J : Nat) (t : iterator_type α) (v : const_iterator α)
    (h : I ≠ J) : std_get J (t.set I v) = std_get J t := by
  simp [std_get, List.getD_eq_getElem?_getD, List.getElem?_set_ne h]

theorem std_get_append_left (I : Nat) (t u : iterator_type α) (h : I < t.length) :
    std_get I (t ++ u) = std_get I t := by
  simp [std_get, List.getD_eq_getElem?_getD, List.getElem?_append_left h]

theorem std_get_length_append (t : iterator_type α) (x : const_iterator α) :
    std_get t.length (t ++ [x]) = x := by
  simp [std_get, List.getD_eq_getElem?_getD]

/-! ## Construction -/

namespace iterator

theorem copy_iterator_cons (I : Nat) (container : List α) (containers : List (List α))
    (this : iterator α) :
    copy_iterator I (container :: containers) this =
      copy_iterator (I + 1) containers
        { this with
          current_ := this.current_.set I (cbegin container)
          begin_ := this.begin_.set I (cbegin container)
          end_ := this.end_.set I (cend container) } := by
  cases containers <;> simp [copy_iterator]

theorem set_length_append_cons {β : Type} (pre post : List β) (x v : β) :
    (pre ++ x :: post).set pre.length v = pre ++ v :: post := by
  induction pre with
  | nil => simp
  | cons a pre ih => simp [ih]

theorem copy_iterator_fields (containers : List (List α)) :
    ∀ (I : Nat) (this : iterator α) (pc pb pe mc mb me : iterator_type α),
      this.current_ = pc ++ mc → this.begin_ = pb ++ mb → this.end_ = pe ++ me →
      pc.length = I → pb.length = I → pe.length = I →
      mc.length = containers.length → mb.length = containers.length →
      me.length = containers.length →
      (copy_iterator I containers this).current_ = pc ++ containers.map cbegin ∧
      (copy_iterator I containers this).begin_ = pb ++ containers.map cbegin ∧
      (copy_iterator I containers this).end_ = pe ++ containers.map cend ∧
      (copy_iterator I containers this).current_tuple_ = this.current_tuple_ := by
  induction containers with
  | nil =>
    intro I this pc pb pe mc mb me hc hb he _ _ _ lc lb le
    simp only [List.length_nil, List.length_eq_zero] at lc lb le
    subst lc lb le
    simp [copy_iterator, hc, hb, he]
  | cons c cs ih =>
    intro I this pc pb pe mc mb me hc hb he lpc lpb lpe lc lb le
    rw [copy_iterator_cons]
    obtain ⟨xc, mc, rfl⟩ := List.exists_cons_of_length_eq_add_one lc
    obtain ⟨xb, mb, rfl⟩ := List.exists_cons_of_length_eq_add_one lb
    obtain ⟨xe, me, rfl⟩ := List.exists_cons_of_length_eq_add_one le
    simp only [List.length_cons, Nat.add_right_cancel_iff] at lc lb le
    have h := ih (I + 1)
      { this with
        current_ := this.current_.set I (cbegin c)
        begin_ := this.begin_.set I (cbegin c)
        end_ := this.end_.set I (cend c) }
      (pc ++ [cbegin c]) (pb ++ [cbegin c]) (pe ++ [cend c]) mc mb me
      (by subst lpc; simp [hc, set_length_append_cons])
      (by subst lpb; simp [hb, set_length_append_cons])
      (by subst lpe; simp [he, set_length_append_cons])
      (by simp [lpc]) (by simp [lpb]) (by simp [lpe]) lc lb le
    simpa using h

theorem ctor_fields (containers : List (List α)) :
    (ctor containers).current_ = containers.map cbegin ∧
    (ctor containers).begin_ = containers.map cbegin ∧
    (ctor containers).end_ = containers.map cend ∧
    (ctor containers).current_tuple_ = none := by
  have h := copy_iterator_fields containers 0 (default_ctor containers.length)
    [] [] [] (List.replicate containers.length default)
    (List.replicate containers.length default) (List.replicate containers.length default)
    rfl rfl rfl rfl rfl rfl (by simp) (by simp) (by simp)
  simpa [ctor, default_ctor] using h

end iterator

/-! ## The carry chain `advance<I>` -/

namespace iterator

variable [DecidableEq α]

theorem advance_succ_stop (I : Nat) (this : iterator α) (hI : I < this.current_.length)
    (h : (std_get I this.current_).succ ≠ std_get I this.end_) :
    advance (I + 1) this =
      { this with current_ := this.current_.set I (std_get I this.current_).succ } := by
  simp only [advance]
  rw [std_get_set_self _ _ _ hI, if_neg h]

theorem advance_one (this : iterator α) :
    advance 1 this =
      { this with current_ := this.current_.set 0 (std_get 0 this.current_).succ } := by
  simp only [advance]
  split <;> simp

theorem advance_succ_carry (I : Nat) (this : iterator α) (hI : I < this.current_.length)
    (h0 : I ≠ 0) (h : (std_get I this.current_).succ = std_get I this.end_) :
    advance (I + 1) this =
      advance I { this with current_ := this.current_.set I (std_get I this.begin_) } := by
  simp only [advance]
  rw [std_get_set_self _ _ _ hI, if_pos h, if_neg (by omega)]
  simp

theorem advance_frame (I : Nat) : ∀ this : iterator α,
    (advance I this).begin_ = this.begin_ ∧ (advance I this).end_ = this.end_ ∧
    (advance I this).current_tuple_ = this.current_tuple_ ∧
    (advance I this).current_.length = this.current_.length := by
  induction I with
  | zero => intro this; simp [advance]
  | succ I ih =>
    intro this
    simp only [advance]
    split
    · split
      · simp
      · obtain ⟨h1, h2, h3, h4⟩ := ih
          { this with
            current_ := (this.current_.set I (std_get I this.current_).succ).set I
              (std_get I this.begin_) }
        simp only [h1, h2, h3, h4]
        simp
    · simp

theorem advance_get_ge (I : Nat) : ∀ (this : iterator α) (i : Nat), I ≤ i →
    std_get i (advance I this).current_ = std_get i this.current_ := by
  induction I with
  | zero => intro this i _; simp [advance]
  | succ I ih =>
    intro this i hi
    simp only [advance]
    split
    · split
      · rw [std_get_set_ne _ _ _ _ (by omega)]
      · rw [ih _ i (by omega)]
        simp only
        rw [std_get_set_ne _ _ _ _ (by omega), std_get_set_ne _ _ _ _ (by omega)]
    · rw [std_get_set_ne _ _ _ _ (by omega)]

/-- Result of `advance<I>` cursor by cursor, when the carry stops at index `j`:
either cursor `j` does not reach its end, or `j = 0`. -/
theorem advance_get (I : Nat) : ∀ (this : iterator α) (j : Nat), j < I →
    I ≤ this.current_.length →
    (∀ i, j < i → i < I → (std_get i this.current_).succ = std_get i this.end_) →
    ((std_get j this.current_).succ ≠ std_get j this.end_ ∨ j = 0) →
    ∀ i, std_get i (advance I this).current_ =
      if i < j then std_get i this.current_
      else if i = j then (std_get j this.current_).succ
      else if i < I then std_get i this.begin_
      else std_get i this.current_ := by
  induction I with
  | zero => intro this j hj; omega
  | succ I ih =>
    intro this j hj hlen hcarry hstop i
    by_cases hjI : j = I
    · subst hjI
      have hadv : advance (j + 1) this =
          { this with current_ := this.current_.set j (std_get j this.current_).succ } := by
        rcases hstop with h | h
        · exact advance_succ_stop j this (by omega) h
        · subst h; exact advance_one this
      rw [hadv]
      by_cases hij : i = j
      · subst hij
        simp [std_get_set_self _ _ _ (show i < this.current_.length by omega)]
      · rw [std_get_set_ne _ _ _ _ (Ne.symm hij)]
        by_cases h1 : i < j
        · simp [h1]
        · simp [h1, hij, show ¬ i < j + 1 by omega]
    · have hjI2 : j < I := by omega
      rw [advance_succ_carry I this (by omega) (by omega) (hcarry I hjI2 (by omega))]
      have key := ih { this with current_ := this.current_.set I (std_get I this.begin_) } j hjI2
        (by simp; omega)
        (by
          intro k hk1 hk2
          simp only
          rw [std_get_set_ne _ _ _ _ (by omega)]
          exact hcarry k hk1 (by omega))
        (by
          simp only
          rw [std_get_set_ne _ _ _ _ (by omega)]
          exact hstop) i
      rw [key]
      simp only
      by_cases h1 : i < j
      · simp [h1, std_get_set_ne _ _ _ _ (show I ≠ i by omega)]
      · by_cases h2 : i = j
        · subst h2
          simp [std_get_set_ne _ _ _ _ (show I ≠ i by omega)]
        · by_cases h3 : i < I
          · simp [h1, h2, h3, show i < I + 1 by omega]
          · by_cases h4 : i = I
            · subst h4
              simp [h1, h2, std_get_set_self _ _ _ (show i < this.current_.length by omega)]
            · simp [h1, h2, h3, show ¬ i < I + 1 by omega,
                std_get_set_ne _ _ _ _ (show I ≠ i by omega)]

end iterator

/-! ## `operator++` -/

namespace iterator

variable [DecidableEq α]

theorem increment_at_end (this : iterator α)
    (h : std_get 0 this.current_ = std_get 0 this.end_) : this.increment = this := by
  simp [increment, h]

theorem increment_iterate_at_end (this : iterator α)
    (h : std_get 0 this.current_ = std_get 0 this.end_) (k : Nat) :
    increment^[k] this = this := by
  induction k with
  | zero => rfl
  | succ k ih => rw [Function.iterate_succ_apply', ih, increment_at_end this h]

theorem increment_fields (this : iterator α)
    (h : std_get 0 this.current_ ≠ std_get 0 this.end_) :
    this.increment.current_ = (advance this.size this).current_ ∧
    this.increment.begin_ = this.begin_ ∧ this.increment.end_ = this.end_ ∧
    this.increment.current_tuple_ = none := by
  obtain ⟨hb, he, _, _⟩ := advance_frame this.size this
  simp only [increment, if_neg h]
  split
  · exact ⟨rfl, hb, he, rfl⟩
  · rename_i hc
    refine ⟨rfl, hb, he, ?_⟩
    simpa using hc

theorem increment_begin_end (this : iterator α) :
    this.increment.begin_ = this.begin_ ∧ this.increment.end_ = this.end_ ∧
    this.increment.current_.length = this.current_.length := by
  by_cases h : std_get 0 this.current_ = std_get 0 this.end_
  · rw [increment_at_end this h]; exact ⟨rfl, rfl, rfl⟩
  · obtain ⟨h1, h2, h3, _⟩ := increment_fields this h
    obtain ⟨_, _, _, h4⟩ := advance_frame this.size this
    exact ⟨h2, h3, by rw [h1, h4]⟩

/-- There is always an index at which the carry chain stops. -/
theorem exists_stop (this : iterator α) (I : Nat) (hI : 0 < I) :
    ∃ j, j < I ∧
      (∀ i, j < i → i < I → (std_get i this.current_).succ = std_get i this.end_) ∧
      ((std_get j this.current_).succ ≠ std_get j this.end_ ∨ j = 0) := by
  induction I with
  | zero => omega
  | succ I ih =>
    by_cases hs : (std_get I this.current_).succ = std_get I this.end_
    · by_cases hI0 : I = 0
      · subst hI0
        exact ⟨0, by omega, by intro i h1 h2; omega, Or.inr rfl⟩
      · obtain ⟨j, hj, hc, hst⟩ := ih (by omega)
        refine ⟨j, by omega, ?_, hst⟩
        intro i h1 h2
        by_cases hiI : i = I
        · subst hiI; exact hs
        · exact hc i h1 (by omega)
    · exact ⟨I, by omega, by intro i h1 h2; omega, Or.inl hs⟩

/-- Result of one `operator++` away from the end, cursor by cursor. -/
theorem increment_get (this : iterator α)
    (h : std_get 0 this.current_ ≠ std_get 0 this.end_) (j : Nat) (hj : j < this.size)
    (hcarry : ∀ i, j < i → i < this.size →
      (std_get i this.current_).succ = std_get i this.end_)
    (hstop : (std_get j this.current_).succ ≠ std_get j this.end_ ∨ j = 0) (i : Nat) :
    std_get i this.increment.current_ =
      if i < j then std_get i this.current_
      else if i = j then (std_get j this.current_).succ
      else if i < this.size then std_get i this.begin_
      else std_get i this.current_ := by
  rw [(increment_fields this h).1]
  exact advance_get this.size this j hj (Nat.le_refl _) hcarry hstop i

end iterator

/-! ## Invariants of reachable states -/

theorem tuple_ext (t u : iterator_type α) (hlen : t.length = u.length)
    (h : ∀ i, i < t.length → std_get i t = std_get i u) : t = u := by
  apply List.ext_getElem hlen
  intro i h1 h2
  have := h i h1
  simpa [std_get, List.getD_eq_getElem?_getD, List.getElem?_eq_getElem h1,
    List.getElem?_eq_getElem h2] using this

namespace iterator

theorem dereference_fields (this : iterator α) :
    this.dereference.2.current_ = this.current_ ∧
    this.dereference.2.begin_ = this.begin_ ∧ this.dereference.2.end_ = this.end_ ∧
    this.dereference.2.current_tuple_ = some this.dereference.1 := by
  unfold dereference
  split
  · simp
  · rename_i v hv
    simp [hv]

theorem assign_fields (this other : iterator α) :
    (this.assign other).current_ = other.current_ ∧
    (this.assign other).begin_ = other.begin_ ∧ (this.assign other).end_ = other.end_ ∧
    (this.assign other).current_tuple_ = none := by
  unfold assign
  split
  · simp
  · rename_i h
    simpa using h

theorem get_end_fields (this : iterator α) :
    this.get_end.current_ = this.begin_.set 0 (std_get 0 this.end_) ∧
    this.get_end.begin_ = this.begin_ ∧ this.get_end.end_ = this.end_ ∧
    this.get_end.current_tuple_ = none := by
  simp [get_end, copy]

theorem wf_ctor (containers : List (List α)) : (ctor containers).wf := by
  obtain ⟨h1, h2, h3, _⟩ := ctor_fields containers
  simp [wf, h1, h2, h3]

theorem wf_get_end (this : iterator α) (h : this.wf) : this.get_end.wf := by
  obtain ⟨h1, h2, h3, _⟩ := get_end_fields this
  unfold wf at *
  rw [h1, h2, h3]
  simp [h.1, h.2]

theorem tail_at_begin_get_end (this : iterator α) : this.get_end.tail_at_begin := by
  obtain ⟨h1, h2, _, _⟩ := get_end_fields this
  intro _ i hi1 _
  rw [h1, h2, std_get_set_ne _ _ _ _ (by omega)]

variable [DecidableEq α]

theorem wf_increment (this : iterator α) (h : this.wf) : this.increment.wf := by
  obtain ⟨h1, h2, h3⟩ := increment_begin_end this
  unfold wf at *
  rw [h1, h2, h3]
  exact h

theorem tail_at_begin_increment (this : iterator α) (h : this.tail_at_begin) :
    this.increment.tail_at_begin := by
  by_cases h0 : std_get 0 this.current_ = std_get 0 this.end_
  · rw [increment_at_end this h0]; exact h
  · intro hend i hi1 hi2
    obtain ⟨hb, he, hl⟩ := increment_begin_end this
    have hsz : this.increment.size = this.size := hl
    rw [hsz] at hi2
    obtain ⟨j, hj, hc, hst⟩ := exists_stop this this.size (by omega)
    have key := increment_get this h0 j hj hc hst
    by_cases hj0 : j = 0
    · subst hj0
      rw [key i, hb]
      simp [show ¬ i < 0 by omega, show i ≠ 0 by omega, hi2]
    · exfalso
      have k0 := key 0
      simp only [show 0 < j by omega, if_true] at k0
      rw [k0, he] at hend
      exact h0 hend

end iterator

theorem Reachable.wf [DecidableEq α] {it : iterator α} (h : Reachable it) : it.wf := by
  induction h with
  | ctor containers => exact iterator.wf_ctor containers
  | copy _ ih => exact ih
  | @assign a b _ _ _ ihb =>
    obtain ⟨h1, h2, h3, _⟩ := iterator.assign_fields a b
    unfold iterator.wf at *
    rw [h1, h2, h3]; exact ihb
  | get_end _ ih => exact iterator.wf_get_end _ ih
  | increment _ ih => exact iterator.wf_increment _ ih
  | @dereference it _ ih =>
    obtain ⟨h1, h2, h3, _⟩ := iterator.dereference_fields it
    unfold iterator.wf at *
    rw [h1, h2, h3]; exact ih

theorem Reachable.tail_at_begin [DecidableEq α] {it : iterator α} (h : Reachable it) :
    it.tail_at_begin := by
  induction h with
  | ctor containers =>
    obtain ⟨h1, h2, _, _⟩ := iterator.ctor_fields containers
    intro _ i _ _
    simp only [make_iterator]
    rw [h1, h2]
  | copy _ ih => exact ih
  | @assign a b _ _ _ ihb =>
    obtain ⟨h1, h2, h3, _⟩ := iterator.assign_fields a b
    unfold iterator.tail_at_begin iterator.size at *
    rw [h1, h2, h3]; exact ihb
  | get_end _ _ => exact iterator.tail_at_begin_get_end _
  | increment _ ih => exact iterator.tail_at_begin_increment _ ih
  | @dereference it _ ih =>
    obtain ⟨h1, h2, h3, _⟩ := iterator.dereference_fields it
    unfold iterator.tail_at_begin iterator.size at *
    rw [h1, h2, h3]; exact ih

theorem Reachable.cache_ok [DecidableEq α] {it : iterator α} (h : Reachable it) :
    it.cache_ok := by
  induction h with
  | ctor containers =>
    intro v hv
    simp [make_iterator, (iterator.ctor_fields containers).2.2.2] at hv
  | @copy it _ _ => intro v hv; simp [iterator.copy] at hv
  | @assign a b _ _ _ _ =>
    intro v hv
    simp [(iterator.assign_fields a b).2.2.2] at hv
  | @get_end it _ _ =>
    intro v hv
    simp [(iterator.get_end_fields it).2.2.2] at hv
  | @increment it _ ih =>
    by_cases h0 : std_get 0 it.current_ = std_get 0 it.end_
    · rw [iterator.increment_at_end it h0]; exact ih
    · intro v hv
      simp [(iterator.increment_fields it h0).2.2.2] at hv
  | @dereference it _ ih =>
    intro v hv
    obtain ⟨h1, _, _, h4⟩ := iterator.dereference_fields it
    rw [h4] at hv
    have hv2 : it.dereference.1 = v := by simpa using hv
    have hm : it.dereference.2.make_value_type = it.make_value_type := by
      simp [iterator.make_value_type, iterator.size, h1]
    rw [hm, ← hv2]
    unfold iterator.dereference
    split
    · rfl
    · rename_i w hw
      exact ih w hw

/-- Equality with the end iterator is decided by index 0 alone on states that
are well formed and have `tail_at_begin`. -/
theorem equal_get_end_iff [DecidableEq α] (it : iterator α) (hwf : it.wf)
    (ht : it.tail_at_begin) :
    it.equal it.get_end = true ↔ std_get 0 it.current_ = std_get 0 it.end_ := by
  obtain ⟨h1, _, _, _⟩ := iterator.get_end_fields it
  simp only [iterator.equal, decide_eq_true_eq, h1]
  constructor
  · intro h
    by_cases hn : 0 < it.begin_.length
    · rw [h, std_get_set_self _ _ _ hn]
    · have hb : it.begin_.length = 0 := by omega
      have hc : it.current_ = [] := List.length_eq_zero.mp (by rw [← hwf.1]; exact hb)
      have he : it.end_ = [] := List.length_eq_zero.mp (by rw [hwf.2, ← hwf.1]; exact hb)
      rw [hc, he]
  · intro h
    apply tuple_ext
    · simp [hwf.1]
    · intro i hi
      by_cases hi0 : i = 0
      · subst hi0
        rw [std_get_set_self _ _ _ (by rw [hwf.1]; exact hi)]
        exact h
      · rw [std_get_set_ne _ _ _ _ (by omega)]
        exact ht h i (by omega) hi

/-! ## Extending an iterator by a last container -/

namespace iterator

theorem make_value_type_eq (this : iterator α) :
    this.make_value_type = this.current_.map const_iterator.deref := by
  apply List.ext_getElem
  · simp [make_value_type, size]
  · intro i h1 h2
    simp only [make_value_type, List.getElem_map, List.getElem_range]
    have hi : i < this.current_.length := by simpa using h2
    simp [std_get, List.getD_eq_getElem?_getD, List.getElem?_eq_getElem hi]

theorem make_value_type_snoc (this : iterator α) (x b e : const_iterator α) :
    (this.snoc x b e).make_value_type = this.make_value_type ++ [x.deref] := by
  simp [make_value_type_eq, snoc]

theorem wf_snoc (this : iterator α) (x b e : const_iterator α) (h : this.wf) :
    (this.snoc x b e).wf := by
  simp [wf, snoc, h.1, h.2]

variable [DecidableEq α]

theorem advance_snoc (I : Nat) : ∀ (this : iterator α) (x b e : const_iterator α),
    this.wf → I ≤ this.current_.length →
    advance I (this.snoc x b e) = (advance I this).snoc x b e := by
  induction I with
  | zero => intro this x b e _ _; simp [advance]
  | succ I ih =>
    intro this x b e hwf hI
    have hc : I < this.current_.length := by omega
    have hb : I < this.begin_.length := by rw [hwf.1]; exact hc
    have he : I < this.end_.length := by rw [hwf.2]; exact hc
    simp only [advance, snoc]
    rw [std_get_append_left I _ _ hc, std_get_append_left I _ _ he,
      std_get_append_left I _ _ hb, List.set_append_left _ _ hc,
      std_get_append_left I _ _ (by simpa using hc), std_get_set_self _ _ _ hc]
    split
    · split
      · rfl
      · have h := ih
          { this with
            current_ := (this.current_.set I (std_get I this.current_).succ).set I
              (std_get I this.begin_) } x b e
          (by simpa [wf] using hwf) (by simp; omega)
        simp only [snoc] at h
        rw [← h]
        congr 2
        rw [List.set_append_left _ _ (by simpa using hc)]
    · rfl

theorem advance_cache (I : Nat) : ∀ (this : iterator α) (v : Option (value_type α)),
    advance I { this with current_tuple_ := v } =
      { advance I this with current_tuple_ := v } := by
  induction I with
  | zero => intro this v; simp [advance]
  | succ I ih =>
    intro this v
    simp only [advance]
    split
    · split
      · rfl
      · exact ih
          { this with
            current_ := (this.current_.set I (std_get I this.current_).succ).set I
              (std_get I this.begin_) } v
    · rfl

end iterator

/-! ## Traversal of the product -/

theorem iterate_chain_list {β : Type} (f : β → β) (S : Nat → β) (L : Nat)
    (h : ∀ r, r + 1 < L → f (S r) = S (r + 1)) :
    ∀ d r, r + d ≤ L → List.iterate f (S r) d = (List.range' r d).map S := by
  intro d
  induction d with
  | zero => intro r _; simp [List.iterate]
  | succ d ih =>
    intro r hr
    cases d with
    | zero => simp [List.iterate]
    | succ d =>
      rw [List.iterate, h r (by omega), ih (r + 1) (by omega)]
      simp [List.range'_succ]

theorem iterate_chain_apply {β : Type} (f : β → β) (S : Nat → β) (L : Nat)
    (h : ∀ r, r + 1 < L → f (S r) = S (r + 1)) :
    ∀ d r, r + d < L → f^[d] (S r) = S (r + d) := by
  intro d
  induction d with
  | zero => intro r _; rfl
  | succ d ih =>
    intro r hr
    rw [Function.iterate_succ_apply', ih r (by omega), h (r + d) (by omega)]
    rfl

namespace iterator

theorem running_snoc (this : iterator α) (x b e : const_iterator α) (hwf : this.wf)
    (hn : 0 < this.size) (h : this.running) : (this.snoc x b e).running := by
  unfold running snoc at *
  simp only
  rw [std_get_append_left 0 _ _ hn, std_get_append_left 0 _ _ (by rw [hwf.2]; exact hn)]
  exact h

variable [DecidableEq α]

theorem increment_eq_advance (this : iterator α) (h : this.running)
    (hc : this.current_tuple_ = none) : this.increment = advance this.size this := by
  have h3 := (advance_frame this.size this).2.2.1
  simp only [increment, if_neg h]
  rw [h3, hc]
  simp

theorem increment_dereference (this : iterator α) (h : this.running)
    (hc : this.current_tuple_ = none) : this.dereference.2.increment = this.increment := by
  have h3 := (advance_frame this.size this).2.2.1
  rw [increment_eq_advance this h hc]
  unfold dereference
  rw [hc]
  simp only [increment]
  rw [if_neg h]
  have : ({ this with current_tuple_ := some this.make_value_type } : iterator α).size
      = this.size := rfl
  rw [this, advance_cache]
  simp only [Option.isSome_some, if_true]
  apply iterator.ext <;> simp [h3, hc]

theorem increment_snoc_stop (this : iterator α) (c : List α) (r : Nat) (hwf : this.wf)
    (hn : 0 < this.size) (h : this.running) (hc : this.current_tuple_ = none)
    (hr : r + 1 ≠ c.length) : (this.snoc_at c r).increment = this.snoc_at c (r + 1) := by
  unfold snoc_at
  rw [increment_eq_advance _ (running_snoc this _ _ _ hwf hn h) hc]
  have hsz : (this.snoc ⟨c, r⟩ (cbegin c) (cend c)).size = this.current_.length + 1 := by
    simp [size, snoc]
  have hg : std_get this.current_.length (this.snoc ⟨c, r⟩ (cbegin c) (cend c)).current_
      = ⟨c, r⟩ := std_get_length_append _ _
  have hge : std_get this.current_.length (this.snoc ⟨c, r⟩ (cbegin c) (cend c)).end_
      = cend c := by
    have := std_get_length_append this.end_ (cend c)
    rw [hwf.2] at this
    exact this
  rw [hsz, advance_succ_stop _ _ (by simp [snoc])]
  · rw [hg]
    simp [snoc, const_iterator.succ]
  · rw [hg, hge]
    simp [const_iterator.succ, cend, hr]

theorem increment_snoc_carry (this : iterator α) (c : List α) (r : Nat) (hwf : this.wf)
    (hn : 0 < this.size) (h : this.running) (hc : this.current_tuple_ = none)
    (hr : r + 1 = c.length) : (this.snoc_at c r).increment = this.increment.snoc_at c 0 := by
  unfold snoc_at
  rw [increment_eq_advance _ (running_snoc this _ _ _ hwf hn h) hc,
    increment_eq_advance this h hc]
  have hsz : (this.snoc ⟨c, r⟩ (cbegin c) (cend c)).size = this.current_.length + 1 := by
    simp [size, snoc]
  have hg : std_get this.current_.length (this.snoc ⟨c, r⟩ (cbegin c) (cend c)).current_
      = ⟨c, r⟩ := std_get_length_append _ _
  have hge : std_get this.current_.length (this.snoc ⟨c, r⟩ (cbegin c) (cend c)).end_
      = cend c := by
    have := std_get_length_append this.end_ (cend c)
    rw [hwf.2] at this
    exact this
  have hgb : std_get this.current_.length (this.snoc ⟨c, r⟩ (cbegin c) (cend c)).begin_
      = cbegin c := by
    have := std_get_length_append this.begin_ (cbegin c)
    rw [hwf.1] at this
    exact this
  have hn2 : this.current_.length ≠ 0 := by unfold size at hn; omega
  rw [hsz, advance_succ_carry _ _ (by simp [snoc]) hn2]
  · have e : ({ this.snoc ⟨c, r⟩ (cbegin c) (cend c) with
          current_ := (this.snoc ⟨c, r⟩ (cbegin c) (cend c)).current_.set
            this.current_.length (cbegin c) } : iterator α)
        = this.snoc ⟨c, 0⟩ (cbegin c) (cend c) := by
      simp [snoc, cbegin]
    rw [hgb, e, advance_snoc _ this _ _ _ hwf (Nat.le_refl _)]
    rfl
  · rw [hg, hge]
    simp [const_iterator.succ, cend, hr]

end iterator

namespace iterator

variable [DecidableEq α]

/-- One pass of the innermost loop: the last cursor runs over its container
while the other cursors stay, then the carry advances the other cursors. -/
theorem iterate_snoc_block (this : iterator α) (c : List α) (hwf : this.wf)
    (hn : 0 < this.size) (h : this.running) (hc : this.current_tuple_ = none)
    (hL : 0 < c.length) :
    List.iterate increment (this.snoc_at c 0) c.length
        = (List.range c.length).map (this.snoc_at c) ∧
      increment^[c.length] (this.snoc_at c 0) = this.increment.snoc_at c 0 := by
  have hstep : ∀ r, r + 1 < c.length →
      (this.snoc_at c r).increment = this.snoc_at c (r + 1) := fun r hr =>
    increment_snoc_stop this c r hwf hn h hc (by omega)
  constructor
  · have := iterate_chain_list increment (this.snoc_at c) c.length hstep c.length 0 (by omega)
    rw [this, List.range_eq_range']
  · obtain ⟨k, hk⟩ : ∃ k, c.length = k + 1 := ⟨c.length - 1, by omega⟩
    rw [hk, Function.iterate_succ_apply',
      iterate_chain_apply increment (this.snoc_at c) c.length hstep k 0 (by omega)]
    simp only [Nat.zero_add]
    exact increment_snoc_carry this c k hwf hn h hc hk.symm

theorem increment_cache_none (this : iterator α) (hc : this.current_tuple_ = none) :
    this.increment.current_tuple_ = none := by
  by_cases h : std_get 0 this.current_ = std_get 0 this.end_
  · rw [increment_at_end this h]; exact hc
  · exact (increment_fields this h).2.2.2

/-- The traversal with one more (last) container is the traversal without it,
each state replaced by a pass over the last container. -/
theorem iterate_snoc (c : List α) (hL : 0 < c.length) : ∀ (m : Nat) (this : iterator α),
    this.wf → 0 < this.size → this.current_tuple_ = none →
    (∀ s ∈ List.iterate increment this m, s.running) →
    List.iterate increment (this.snoc_at c 0) (m * c.length)
        = (List.iterate increment this m).flatMap
            (fun s => (List.range c.length).map (s.snoc_at c)) ∧
      increment^[m * c.length] (this.snoc_at c 0) = (increment^[m] this).snoc_at c 0 := by
  intro m
  induction m with
  | zero => intro this _ _ _ _; simp [List.iterate]
  | succ m ih =>
    intro this hwf hn hc hrun
    have hr0 : this.running := hrun this (by simp [List.iterate])
    obtain ⟨hb1, hb2⟩ := iterate_snoc_block this c hwf hn hr0 hc hL
    have hsz : this.increment.size = this.size := (increment_begin_end this).2.2
    obtain ⟨ih1, ih2⟩ := ih this.increment (wf_increment this hwf) (by rw [hsz]; exact hn)
      (increment_cache_none this hc)
      (by
        intro s hs
        apply hrun s
        rw [List.iterate]
        exact List.mem_cons_of_mem _ hs)
    have hmul : (m + 1) * c.length = c.length + m * c.length := by
      rw [Nat.succ_mul, Nat.add_comm]
    constructor
    · rw [hmul, List.iterate_add, hb1, hb2, ih1]
      simp [List.iterate]
    · rw [Nat.succ_mul, Function.iterate_add_apply, hb2, ih2]
      rfl

end iterator

/-! ## The nested loops of the specification -/

theorem nested_loops_snoc (cs : List (List α)) (c : List α) :
    nested_loops (cs ++ [c])
      = (nested_loops cs).flatMap (fun t => c.map (fun x => t ++ [x])) := by
  induction cs with
  | nil => simp [nested_loops, List.map_eq_flatMap]
  | cons d cs ih =>
    have e : nested_loops (d :: cs ++ [c])
        = d.flatMap (fun x => (nested_loops (cs ++ [c])).map (fun t => x :: t)) := rfl
    rw [e, ih]
    simp only [nested_loops, List.flatMap_assoc, List.map_flatMap, List.flatMap_map,
      List.map_map]
    rfl

theorem length_nested_loops (cs : List (List α)) :
    (nested_loops cs).length = (cs.map List.length).prod := by
  induction cs with
  | nil => simp [nested_loops]
  | cons d cs ih =>
    simp only [nested_loops, List.length_flatMap, List.length_map, ih, List.map_cons,
      List.prod_cons]
    induction d with
    | nil => simp
    | cons x d ihd => simp [ihd, ih, Nat.succ_mul, Nat.add_comm]

/-! ## The traversal emits the nested loops -/

theorem range_map_index {β : Type} (xs : List α) (g : Option α → β) :
    (List.range xs.length).map (fun r => g (xs[r]?)) = xs.map (fun x => g (some x)) := by
  apply List.ext_getElem
  · simp
  · intro i h1 h2
    have hi : i < xs.length := by simpa using h2
    simp [List.getElem?_eq_getElem hi]

namespace iterator

theorem values_snoc_block (this : iterator α) (c : List α) :
    ((List.range c.length).map (this.snoc_at c)).map make_value_type
      = c.map (fun x => this.make_value_type ++ [some x]) := by
  rw [List.map_map, ← range_map_index c (fun o => this.make_value_type ++ [o])]
  apply List.map_congr_left
  intro r _
  simp [snoc_at, make_value_type_snoc, const_iterator.deref]

theorem ctor_snoc (cs : List (List α)) (c : List α) :
    ctor (cs ++ [c]) = (ctor cs).snoc_at c 0 := by
  obtain ⟨h1, h2, h3, h4⟩ := ctor_fields (cs ++ [c])
  obtain ⟨g1, g2, g3, g4⟩ := ctor_fields cs
  apply iterator.ext
  · simp [h1, snoc_at, snoc, g1, cbegin]
  · simp [h2, snoc_at, snoc, g2]
  · simp [h3, snoc_at, snoc, g3]
  · simp [h4, snoc_at, snoc, g4]

theorem get_end_snoc (this : iterator α) (c : List α) (r : Nat) (hwf : this.wf)
    (hn : 0 < this.size) : (this.snoc_at c r).get_end = this.get_end.snoc_at c 0 := by
  have hb : 0 < this.begin_.length := by rw [hwf.1]; exact hn
  have he : 0 < this.end_.length := by rw [hwf.2]; exact hn
  apply iterator.ext
  · simp [get_end, copy, snoc_at, snoc, List.set_append_left _ _ hb,
      std_get_append_left 0 _ _ he, cbegin]
  · simp [get_end, copy, snoc_at, snoc]
  · simp [get_end, copy, snoc_at, snoc]
  · simp [get_end, copy, snoc_at, snoc]

variable [DecidableEq α]

theorem iterate_wf (this : iterator α) (h : this.wf) (k : Nat) : (increment^[k] this).wf := by
  induction k with
  | zero => exact h
  | succ k ih => rw [Function.iterate_succ_apply']; exact wf_increment _ ih

theorem iterate_begin_end (this : iterator α) (k : Nat) :
    (increment^[k] this).begin_ = this.begin_ ∧ (increment^[k] this).end_ = this.end_ ∧
    (increment^[k] this).size = this.size := by
  induction k with
  | zero => exact ⟨rfl, rfl, rfl⟩
  | succ k ih =>
    rw [Function.iterate_succ_apply']
    obtain ⟨h1, h2, h3⟩ := increment_begin_end (increment^[k] this)
    exact ⟨h1.trans ih.1, h2.trans ih.2.1, h3.trans ih.2.2⟩

/-- A running iterator differs from the end iterator of any iterator with the
same bounds. -/
theorem not_equal_get_end_of_running (this other : iterator α) (hwf : other.wf)
    (hn : 0 < other.size) (he : this.end_ = other.end_) (h : this.running) :
    this.equal other.get_end = false := by
  simp only [equal, decide_eq_false_iff_not, (get_end_fields other).1]
  intro hcur
  apply h
  rw [hcur, he, std_get_set_self _ _ _ (by rw [hwf.1]; exact hn)]

/-- The loop of the usage example runs through the first `m` states when they
are all running and the state after them equals `end`. -/
theorem for_loop_eq (end_it : iterator α) : ∀ (m : Nat) (it : iterator α),
    it.current_tuple_ = none →
    (∀ s ∈ List.iterate increment it m, s.running ∧ s.equal end_it = false) →
    (increment^[m] it).equal end_it = true →
    ∀ fuel, m < fuel →
      for_loop fuel end_it it = some ((List.iterate increment it m).map make_value_type) := by
  intro m
  induction m with
  | zero =>
    intro it _ _ hend fuel hfuel
    obtain ⟨f, rfl⟩ : ∃ f, fuel = f + 1 := ⟨fuel - 1, by omega⟩
    have : it.equal end_it = true := hend
    simp [for_loop, this, List.iterate]
  | succ m ih =>
    intro it hc hrun hend fuel hfuel
    obtain ⟨f, rfl⟩ : ∃ f, fuel = f + 1 := ⟨fuel - 1, by omega⟩
    obtain ⟨hr0, hne0⟩ := hrun it (by simp [List.iterate])
    have hd : it.dereference.1 = it.make_value_type := by
      unfold dereference; rw [hc]
    rw [for_loop, hne0]
    simp only [Bool.false_eq_true, if_false]
    rw [increment_dereference it hr0 hc,
      ih it.increment (increment_cache_none it hc)
        (by
          intro s hs
          apply hrun s
          rw [List.iterate]
          exact List.mem_cons_of_mem _ hs)
        (by rw [← Function.iterate_succ_apply]; exact hend) f (by omega)]
    simp [List.iterate, hd]

end iterator

namespace iterator

theorem ctor_nil : ctor ([] : List (List α)) = ⟨[], [], [], none⟩ := by
  simp [ctor, copy_iterator, default_ctor]

variable [DecidableEq α]

theorem increment_single (c : List α) (r : Nat) (hr : r ≠ c.length) :
    ((ctor ([] : List (List α))).snoc_at c r).increment
      = (ctor ([] : List (List α))).snoc_at c (r + 1) := by
  have hrun : ((ctor ([] : List (List α))).snoc_at c r).running := by
    simp [running, ctor_nil, snoc_at, snoc, std_get, cend, hr]
  rw [increment_eq_advance _ hrun (by simp [ctor_nil, snoc_at, snoc])]
  have hsz : ((ctor ([] : List (List α))).snoc_at c r).size = 1 := by
    simp [size, ctor_nil, snoc_at, snoc]
  rw [hsz, advance_one]
  simp [ctor_nil, snoc_at, snoc, std_get, const_iterator.succ]

/-- Traversal over a single container. -/
theorem traversal_single (c : List α) :
    (∀ s ∈ List.iterate increment (ctor [c]) c.length, s.running) ∧
    (List.iterate increment (ctor [c]) c.length).map make_value_type
      = (nested_loops [c]).map (List.map some) ∧
    increment^[c.length] (ctor [c]) = (ctor [c]).get_end := by
  have hctor : ctor [c] = (ctor ([] : List (List α))).snoc_at c 0 := ctor_snoc [] c
  have hstep : ∀ r, r + 1 < c.length + 1 →
      ((ctor ([] : List (List α))).snoc_at c r).increment
        = (ctor ([] : List (List α))).snoc_at c (r + 1) := fun r hr =>
    increment_single c r (by omega)
  have hlist := iterate_chain_list increment ((ctor ([] : List (List α))).snoc_at c)
    (c.length + 1) hstep c.length 0 (by omega)
  have happ := iterate_chain_apply increment ((ctor ([] : List (List α))).snoc_at c)
    (c.length + 1) hstep c.length 0 (by omega)
  rw [hctor, hlist, happ, ← List.range_eq_range']
  refine ⟨?_, ?_, ?_⟩
  · intro s hs
    obtain ⟨r, hr, rfl⟩ := List.mem_map.mp hs
    have hr2 : r < c.length := List.mem_range.mp hr
    simp only [running, ctor_nil, snoc_at, snoc, std_get, cend]
    simp
    omega
  · rw [values_snoc_block]
    simp [nested_loops, make_value_type_eq, ctor_nil, ← List.map_eq_flatMap]
  · apply iterator.ext <;>
      simp [get_end, copy, ctor_nil, snoc_at, snoc, std_get, cend, cbegin]

/-- Traversal from the freshly constructed iterator over non-empty containers:
the first `L1 * ... * Ln` states are running, their tuples are those of the
nested loops, and the state after them is the end iterator. -/
theorem traversal (cs : List (List α)) : cs ≠ [] → (∀ c ∈ cs, 0 < c.length) →
    (∀ s ∈ List.iterate increment (ctor cs) (cs.map List.length).prod, s.running) ∧
    (List.iterate increment (ctor cs) (cs.map List.length).prod).map make_value_type
      = (nested_loops cs).map (List.map some) ∧
    increment^[(cs.map List.length).prod] (ctor cs) = (ctor cs).get_end := by
  induction cs using List.reverseRecOn with
  | nil => intro h; exact absurd rfl h
  | append_singleton cs c ih =>
    intro _ hpos
    by_cases hcs : cs = []
    · subst hcs
      simpa using traversal_single c
    · obtain ⟨ih1, ih2, ih3⟩ := ih hcs (fun d hd => hpos d (by simp [hd]))
      have hL : 0 < c.length := hpos c (by simp)
      have hwf : (ctor cs).wf := wf_ctor cs
      have hn : 0 < (ctor cs).size := by
        simp only [size, (ctor_fields cs).1, List.length_map]
        exact List.length_pos.mpr hcs
      obtain ⟨k1, k2⟩ := iterate_snoc c hL (cs.map List.length).prod (ctor cs) hwf hn
        (ctor_fields cs).2.2.2 ih1
      have hprod : ((cs ++ [c]).map List.length).prod
          = (cs.map List.length).prod * c.length := by simp
      rw [hprod, ctor_snoc, k1, k2]
      refine ⟨?_, ?_, ?_⟩
      · intro s hs
        obtain ⟨t, ht, hs2⟩ := List.mem_flatMap.mp hs
        obtain ⟨r, _, rfl⟩ := List.mem_map.mp hs2
        obtain ⟨m, _, rfl⟩ := List.mem_iterate.mp ht
        exact running_snoc _ _ _ _ (iterate_wf _ hwf m)
          (by rw [(iterate_begin_end (ctor cs) m).2.2]; exact hn) (ih1 _ ht)
      · rw [List.map_flatMap]
        simp only [values_snoc_block]
        rw [← List.flatMap_map make_value_type
          (fun t => c.map (fun x => t ++ [some x])), ih2, nested_loops_snoc]
        simp [List.flatMap_map, List.map_flatMap, Function.comp_def]
      · rw [ih3, get_end_snoc _ _ _ hwf hn]

end iterator

/-! ## The visited positions are pairwise distinct -/

namespace iterator

theorem nodup_snoc_block (states : List (iterator α)) (c : List α)
    (h : (states.map (fun s => s.current_)).Nodup) :
    ((states.flatMap (fun s => (List.range c.length).map (s.snoc_at c))).map
      (fun s => s.current_)).Nodup := by
  rw [List.map_flatMap, List.nodup_flatMap]
  constructor
  · intro s _
    rw [List.map_map]
    apply List.Nodup.map _ (List.nodup_range _)
    intro r r' hrr
    simpa [snoc_at, snoc] using hrr
  · have hp := List.pairwise_map.mp h
    apply hp.imp
    intro s t hst
    simp only [Function.onFun, List.disjoint_left, List.mem_map, List.mem_range,
      Function.comp_apply]
    rintro x ⟨u, ⟨r, _, rfl⟩, rfl⟩ ⟨v, ⟨r', _, rfl⟩, hv⟩
    apply hst
    simp only [snoc_at, snoc] at hv
    exact (List.append_inj_left' hv rfl).symm

variable [DecidableEq α]

/-- Over non-empty containers, the `L1 * ... * Ln` positions visited before
the end iterator is reached are pairwise distinct. -/
theorem traversal_nodup (cs : List (List α)) : cs ≠ [] → (∀ c ∈ cs, 0 < c.length) →
    ((List.iterate increment (ctor cs) (cs.map List.length).prod).map
      (fun s => s.current_)).Nodup := by
  induction cs using List.reverseRecOn with
  | nil => intro h; exact absurd rfl h
  | append_singleton cs c ih =>
    intro _ hpos
    have hL : 0 < c.length := hpos c (by simp)
    by_cases hcs : cs = []
    · subst hcs
      have hstep : ∀ r, r + 1 < c.length + 1 →
          ((ctor ([] : List (List α))).snoc_at c r).increment
            = (ctor ([] : List (List α))).snoc_at c (r + 1) := fun r hr =>
        increment_single c r (by omega)
      have hlist := iterate_chain_list increment ((ctor ([] : List (List α))).snoc_at c)
        (c.length + 1) hstep c.length 0 (by omega)
      have hb := nodup_snoc_block [ctor ([] : List (List α))] c (by simp)
      have hc : ctor ([] ++ [c]) = (ctor ([] : List (List α))).snoc_at c 0 := ctor_snoc [] c
      rw [hc]
      simp only [List.nil_append, List.map_cons, List.map_nil, List.prod_cons, List.prod_nil,
        Nat.mul_one]
      rw [hlist, ← List.range_eq_range']
      simpa using hb
    · have hpos2 : ∀ d ∈ cs, 0 < d.length := fun d hd => hpos d (by simp [hd])
      obtain ⟨t1, _, _⟩ := traversal cs hcs hpos2
      have hn : 0 < (ctor cs).size := by
        simp only [size, (ctor_fields cs).1, List.length_map]
        exact List.length_pos.mpr hcs
      obtain ⟨k1, _⟩ := iterate_snoc c hL (cs.map List.length).prod (ctor cs) (wf_ctor cs) hn
        (ctor_fields cs).2.2.2 t1
      have hprod : ((cs ++ [c]).map List.length).prod
          = (cs.map List.length).prod * c.length := by simp
      rw [hprod, ctor_snoc, k1]
      exact nodup_snoc_block _ c (ih hcs hpos2)

end iterator

/-! ## Further facts used by the main results -/

theorem dereference_value (it : iterator α) (h : it.cache_ok) :
    it.dereference.1 = it.make_value_type := by
  unfold iterator.dereference
  split
  · rfl
  · rename_i v hv
    exact h v hv

theorem dereference_of_some (it : iterator α) (v : value_type α)
    (h : it.current_tuple_ = some v) : it.dereference = (v, it) := by
  unfold iterator.dereference
  rw [h]

theorem index_zero_of_equal_get_end [DecidableEq α] (it : iterator α) (hwf : it.wf)
    (h : it.equal it.get_end = true) : std_get 0 it.current_ = std_get 0 it.end_ := by
  obtain ⟨h1, _, _, _⟩ := iterator.get_end_fields it
  simp only [iterator.equal, decide_eq_true_eq, h1] at h
  by_cases hn : 0 < it.begin_.length
  · rw [h, std_get_set_self _ _ _ hn]
  · have hb : it.begin_.length = 0 := by omega
    have hc : it.current_ = [] := List.length_eq_zero.mp (by rw [← hwf.1]; exact hb)
    have he : it.end_ = [] := List.length_eq_zero.mp (by rw [hwf.2, ← hwf.1]; exact hb)
    rw [hc, he]

theorem reachable_iterate [DecidableEq α] (it : iterator α) (h : Reachable it) (k : Nat) :
    Reachable (iterator.increment^[k] it) := by
  induction k with
  | zero => exact h
  | succ k ih => rw [Function.iterate_succ_apply']; exact Reachable.increment ih

/-! ## Main results -/

/-- C1: over `N ≥ 1` non-empty sequences, the loop of the usage example
(dereference, then advance, until the iterator equals `get_end()`) terminates
and emits exactly the tuples of the `N` nested loops, first sequence outermost
and last sequence innermost; after `L1 * ... * Ln` advances the iterator equals
its end iterator. -/
theorem traversal_matches_nested_loops [DecidableEq α] (containers : List (List α))
    (hN : 1 ≤ containers.length) (hne : ∀ c ∈ containers, c ≠ [])
    (fuel : Nat) (hfuel : (containers.map List.length).prod < fuel) :
    example_loop fuel containers = some ((nested_loops containers).map (List.map some)) ∧
    (iterator.increment^[(containers.map List.length).prod] (make_iterator containers)).equal
      (make_iterator containers).get_end = true := by
  have hcs : containers ≠ [] := by
    intro h; rw [h] at hN; simp at hN
  obtain ⟨t1, t2, t3⟩ := iterator.traversal containers hcs
    (fun c hc => List.length_pos.mpr (hne c hc))
  have hwf : (iterator.ctor containers).wf := iterator.wf_ctor containers
  have hn : 0 < (iterator.ctor containers).size := by
    simp only [iterator.size, (iterator.ctor_fields containers).1, List.length_map]
    exact hN
  have hend : (iterator.increment^[(containers.map List.length).prod]
      (iterator.ctor containers)).equal (iterator.ctor containers).get_end = true := by
    rw [t3]; simp [iterator.equal]
  refine ⟨?_, hend⟩
  unfold example_loop make_iterator
  simp only
  rw [iterator.for_loop_eq _ _ _ (iterator.ctor_fields containers).2.2.2 _ hend fuel hfuel, t2]
  intro s hs
  refine ⟨t1 s hs, ?_⟩
  obtain ⟨m, _, rfl⟩ := List.mem_iterate.mp hs
  exact iterator.not_equal_get_end_of_running _ _ hwf hn
    (iterator.iterate_begin_end _ m).2.1 (t1 _ hs)

/-- Instance of C1 at the header's example: `[1,2]` and `['a','b']` give
`(1,'a'), (1,'b'), (2,'a'), (2,'b')`, and then the iterator equals its end. -/
theorem traversal_matches_nested_loops_witness :
    (1 ≤ [[Sum.inl 1, Sum.inl 2], [(Sum.inr 'a' : Nat ⊕ Char), Sum.inr 'b']].length ∧
      (∀ c ∈ [[Sum.inl 1, Sum.inl 2], [(Sum.inr 'a' : Nat ⊕ Char), Sum.inr 'b']], c ≠ []) ∧
      ([[Sum.inl 1, Sum.inl 2], [(Sum.inr 'a' : Nat ⊕ Char), Sum.inr 'b']].map
        List.length).prod < 5) ∧
    example_loop 5 [[Sum.inl 1, Sum.inl 2], [(Sum.inr 'a' : Nat ⊕ Char), Sum.inr 'b']]
      = some [[some (Sum.inl 1), some (Sum.inr 'a')], [some (Sum.inl 1), some (Sum.inr 'b')],
          [some (Sum.inl 2), some (Sum.inr 'a')], [some (Sum.inl 2), some (Sum.inr 'b')]] ∧
    (iterator.increment^[4]
        (make_iterator [[Sum.inl 1, Sum.inl 2], [(Sum.inr 'a' : Nat ⊕ Char), Sum.inr 'b']])).equal
      (make_iterator
        [[Sum.inl 1, Sum.inl 2], [(Sum.inr 'a' : Nat ⊕ Char), Sum.inr 'b']]).get_end = true :=
  ⟨⟨by decide, by simp, by decide⟩,
    traversal_matches_nested_loops
      [[Sum.inl 1, Sum.inl 2], [(Sum.inr 'a' : Nat ⊕ Char), Sum.inr 'b']]
      (by decide) (by simp) 5 (by decide)⟩

/-- C2, evaluated on `[1,2]` and `[]` (lengths 2 and 0, product 0): after any
number `k` of advances the cursors are `(0, k)`, which never equals the end
iterator `(2, 0)`; the loop of the usage example does not finish for any fuel,
so more than `2 * 0 = 0` positions are visited. -/
theorem empty_inner_sequence_never_reaches_end (k : Nat) :
    (iterator.increment^[k] (make_iterator [[1, 2], ([] : List Nat)])).current_
      = [⟨[1, 2], 0⟩, ⟨[], k⟩] ∧
    (iterator.increment^[k] (make_iterator [[1, 2], ([] : List Nat)])).equal
      (make_iterator [[1, 2], ([] : List Nat)]).get_end = false ∧
    example_loop k [[1, 2], ([] : List Nat)] = none := by
  have hstate : ∀ n, iterator.increment^[n] (make_iterator [[1, 2], ([] : List Nat)])
      = ⟨[⟨[1, 2], 0⟩, ⟨[], n⟩], [⟨[1, 2], 0⟩, ⟨[], 0⟩], [⟨[1, 2], 2⟩, ⟨[], 0⟩], none⟩ := by
    intro n
    induction n with
    | zero => rfl
    | succ n ih =>
      rw [Function.iterate_succ_apply', ih]
      simp [iterator.increment, iterator.advance, iterator.size, std_get,
        const_iterator.succ]
  have hloop : ∀ fuel n, for_loop fuel (make_iterator [[1, 2], ([] : List Nat)]).get_end
      (iterator.increment^[n] (make_iterator [[1, 2], ([] : List Nat)])) = none := by
    intro fuel
    induction fuel with
    | zero => intro n; rfl
    | succ fuel ih =>
      intro n
      have hne : (iterator.increment^[n] (make_iterator [[1, 2], ([] : List Nat)])).equal
          (make_iterator [[1, 2], ([] : List Nat)]).get_end = false := by
        rw [hstate n]
        simp [iterator.equal, iterator.get_end, iterator.copy, make_iterator, iterator.ctor,
          iterator.copy_iterator, iterator.default_ctor, std_get, cbegin, cend]
      have hrun : (iterator.increment^[n]
          (make_iterator [[1, 2], ([] : List Nat)])).running := by
        rw [hstate n]
        simp [iterator.running, std_get]
      have hc : (iterator.increment^[n]
          (make_iterator [[1, 2], ([] : List Nat)])).current_tuple_ = none := by
        rw [hstate n]
      rw [for_loop, hne]
      simp only [Bool.false_eq_true, if_false]
      rw [iterator.increment_dereference _ hrun hc,
        ← Function.iterate_succ_apply' iterator.increment n, ih (n + 1)]
      rfl
  refine ⟨by rw [hstate k], ?_, hloop k 0⟩
  rw [hstate k]
  simp [iterator.equal, iterator.get_end, iterator.copy, make_iterator, iterator.ctor,
    iterator.copy_iterator, iterator.default_ctor, std_get, cbegin, cend]

/-- C3, evaluated on the non-empty sequence `[1,2]` followed by the empty
sequence: the freshly constructed iterator does not equal its own `get_end()`,
and the loop body runs, reading the tuple `(1, <out of range>)`. -/
theorem empty_inner_sequence_not_at_end :
    (make_iterator [[1, 2], ([] : List Nat)]).equal
      (make_iterator [[1, 2], ([] : List Nat)]).get_end = false ∧
    (make_iterator [[1, 2], ([] : List Nat)]).dereference.1 = [some 1, none] := by
  constructor
  · simp [iterator.equal, iterator.get_end, iterator.copy, make_iterator, iterator.ctor,
      iterator.copy_iterator, iterator.default_ctor, std_get, cbegin, cend]
  · rfl

/-- C4: at a reachable position where every current cursor is dereferenceable,
`get<i>()` returns the `i`-th component of the tuple returned by `operator*`,
whether the cache is empty or filled. -/
theorem get_eq_dereference_component [DecidableEq α] (it : iterator α) (h : Reachable it)
    (hd : ∀ k, k < it.size → (std_get k it.current_).deref ≠ none)
    (i : Nat) (hi : i < it.size) :
    ∃ x, it.get i = some x ∧ it.dereference.1[i]? = some (some x) := by
  obtain ⟨x, hx⟩ := Option.ne_none_iff_exists'.mp (hd i hi)
  refine ⟨x, hx, ?_⟩
  rw [dereference_value it h.cache_ok, iterator.make_value_type_eq]
  have hi2 : i < it.current_.length := hi
  rw [List.getElem?_map, List.getElem?_eq_getElem hi2]
  simp only [Option.map_some']
  rw [← hx]
  simp [std_get, List.getD_eq_getElem?_getD, List.getElem?_eq_getElem hi2]

/-- Instance of C4 with a filled cache: after `*it` on the iterator over
`[1,2]` and `[3]`, `get<1>()` and component 1 of `*it` are both `3`. -/
theorem get_eq_dereference_component_witness :
    (Reachable (make_iterator [[1, 2], [3]]).dereference.2 ∧
      (∀ k, k < (make_iterator [[1, 2], [3]]).dereference.2.size →
        (std_get k (make_iterator [[1, 2], [3]]).dereference.2.current_).deref ≠ none) ∧
      1 < (make_iterator [[1, 2], [3]]).dereference.2.size) ∧
    ∃ x, (make_iterator [[1, 2], [3]]).dereference.2.get 1 = some x ∧
      (make_iterator [[1, 2], [3]]).dereference.2.dereference.1[1]? = some (some x) :=
  have hd : ∀ k, k < (make_iterator [[1, 2], [3]]).dereference.2.size →
      (std_get k (make_iterator [[1, 2], [3]]).dereference.2.current_).deref ≠ none := by
    intro k hk
    have hk2 : k < 2 := hk
    interval_cases k <;> decide
  ⟨⟨Reachable.dereference (Reachable.ctor _), hd, by decide⟩,
    get_eq_dereference_component _ (Reachable.dereference (Reachable.ctor _)) hd 1
      (by decide)⟩

/-- C5: when the index-0 current cursor equals the index-0 end cursor, any
number of advances leaves the iterator (all its cursors) unchanged; in
particular an iterator equal to its end iterator has index 0 at its end and
still equals its end iterator after any number of advances. -/
theorem increment_at_end_is_noop [DecidableEq α] (it : iterator α) (hwf : it.wf) :
    (std_get 0 it.current_ = std_get 0 it.end_ →
      ∀ k, (iterator.increment^[k] it).current_ = it.current_ ∧
        iterator.increment^[k] it = it) ∧
    (it.equal it.get_end = true →
      std_get 0 it.current_ = std_get 0 it.end_ ∧
      ∀ k, (iterator.increment^[k] it).current_ = it.current_ ∧
        (iterator.increment^[k] it).equal (iterator.increment^[k] it).get_end = true ∧
        (iterator.increment^[k] it).equal it.get_end = true) := by
  constructor
  · intro h k
    rw [iterator.increment_iterate_at_end it h k]
    exact ⟨rfl, rfl⟩
  · intro h
    have h0 := index_zero_of_equal_get_end it hwf h
    refine ⟨h0, ?_⟩
    intro k
    rw [iterator.increment_iterate_at_end it h0 k]
    exact ⟨rfl, h, h⟩

/-- Instance of C5 at the end iterator of the iterator over `[1,2]` and `[3]`:
it equals its own end iterator, index 0 is at its end, and it stays so. -/
theorem increment_at_end_is_noop_witness :
    ((make_iterator [[1, 2], [3]]).get_end.wf ∧
      (make_iterator [[1, 2], [3]]).get_end.equal
        (make_iterator [[1, 2], [3]]).get_end.get_end = true) ∧
    std_get 0 (make_iterator [[1, 2], [3]]).get_end.current_
        = std_get 0 (make_iterator [[1, 2], [3]]).get_end.end_ ∧
    ∀ k, (iterator.increment^[k] (make_iterator [[1, 2], [3]]).get_end).current_
          = (make_iterator [[1, 2], [3]]).get_end.current_ ∧
      (iterator.increment^[k] (make_iterator [[1, 2], [3]]).get_end).equal
          (iterator.increment^[k] (make_iterator [[1, 2], [3]]).get_end).get_end = true ∧
      (iterator.increment^[k] (make_iterator [[1, 2], [3]]).get_end).equal
          (make_iterator [[1, 2], [3]]).get_end.get_end = true :=
  ⟨⟨by decide, by decide⟩,
    (increment_at_end_is_noop (make_iterator [[1, 2], [3]]).get_end (by decide)).2
      (by decide)⟩

/-- C6: in every state reached from construction by advances, the iterator
equals its own `get_end()` exactly when its index-0 current cursor equals its
index-0 end cursor, and in that case every other cursor is at its begin. -/
theorem equal_end_iff_index_zero_at_end [DecidableEq α] (containers : List (List α))
    (k : Nat) :
    ((iterator.increment^[k] (make_iterator containers)).equal
        (iterator.increment^[k] (make_iterator containers)).get_end = true ↔
      std_get 0 (iterator.increment^[k] (make_iterator containers)).current_
        = std_get 0 (iterator.increment^[k] (make_iterator containers)).end_) ∧
    (std_get 0 (iterator.increment^[k] (make_iterator containers)).current_
        = std_get 0 (iterator.increment^[k] (make_iterator containers)).end_ →
      ∀ i, 0 < i → i < containers.length →
        std_get i (iterator.increment^[k] (make_iterator containers)).current_
          = std_get i (iterator.increment^[k] (make_iterator containers)).begin_) := by
  have hr : Reachable (iterator.increment^[k] (make_iterator containers)) :=
    reachable_iterate _ (Reachable.ctor containers) k
  refine ⟨equal_get_end_iff _ hr.wf hr.tail_at_begin, ?_⟩
  intro h i hi1 hi2
  apply hr.tail_at_begin h i hi1
  rw [(iterator.iterate_begin_end _ k).2.2]
  simpa [iterator.size, make_iterator, (iterator.ctor_fields containers).1] using hi2

/-- C8: two whole-tuple accesses with no advance in between return the same
tuple, the second one reusing the cache of the first; and for a reachable
iterator not at its end, the whole-tuple access after an advance returns the
elements under the new current cursors, with or without a whole-tuple access
before the advance (the advance leaves no cache behind). -/
theorem dereference_stable_and_fresh [DecidableEq α] (it : iterator α) :
    (it.dereference.2.dereference.1 = it.dereference.1 ∧
      it.dereference.2.current_tuple_ = some it.dereference.1 ∧
      it.dereference.2.dereference.2 = it.dereference.2) ∧
    (Reachable it → it.equal it.get_end = false →
      it.increment.current_tuple_ = none ∧
      it.increment.dereference.1 = it.increment.current_.map const_iterator.deref ∧
      it.dereference.2.increment.current_ = it.increment.current_ ∧
      it.dereference.2.increment.current_tuple_ = none ∧
      it.dereference.2.increment.dereference.1
        = it.increment.current_.map const_iterator.deref) := by
  constructor
  · have h4 := (iterator.dereference_fields it).2.2.2
    have h := dereference_of_some it.dereference.2 it.dereference.1 h4
    exact ⟨by rw [h], h4, by rw [h]⟩
  · intro hr hne
    have hrun : it.running := by
      intro h0
      have := (equal_get_end_iff it hr.wf hr.tail_at_begin).mpr h0
      rw [hne] at this
      exact Bool.false_ne_true this
    have hcur : it.dereference.2.increment.current_ = it.increment.current_ := by
      have hd := iterator.dereference_fields it
      have hrun2 : it.dereference.2.running := by
        unfold iterator.running; rw [hd.1, hd.2.2.1]; exact hrun
      rw [(iterator.increment_fields _ hrun2).1, (iterator.increment_fields _ hrun).1]
      unfold iterator.dereference
      split
      · have : ({ it with current_tuple_ := some it.make_value_type } : iterator α).size
            = it.size := rfl
        rw [this, iterator.advance_cache]
      · rfl
    have hrun2 : it.dereference.2.running := by
      have hd := iterator.dereference_fields it
      unfold iterator.running; rw [hd.1, hd.2.2.1]; exact hrun
    have hc1 := (iterator.increment_fields _ hrun).2.2.2
    have hc2 := (iterator.increment_fields _ hrun2).2.2.2
    refine ⟨hc1, ?_, hcur, hc2, ?_⟩
    · rw [dereference_value _ (Reachable.increment hr).cache_ok, iterator.make_value_type_eq]
    · rw [dereference_value _ (Reachable.increment (Reachable.dereference hr)).cache_ok,
        iterator.make_value_type_eq, hcur]

/-- C9: `get_end()` returns an iterator with the begin and end cursors of `it`,
whose current cursor at index 0 is the index-0 end cursor of `it` and whose
current cursor at every index `i ≥ 1` is the index-`i` begin cursor of `it`. -/
theorem get_end_cursors (it : iterator α) (hwf : it.wf) (hN : 1 ≤ it.size) :
    it.get_end.begin_ = it.begin_ ∧ it.get_end.end_ = it.end_ ∧
    it.get_end.size = it.size ∧
    std_get 0 it.get_end.current_ = std_get 0 it.end_ ∧
    ∀ i, 1 ≤ i → std_get i it.get_end.current_ = std_get i it.begin_ := by
  obtain ⟨h1, h2, h3, _⟩ := iterator.get_end_fields it
  refine ⟨h2, h3, ?_, ?_, ?_⟩
  · simp [iterator.size, h1, hwf.1]
  · rw [h1, std_get_set_self _ _ _ (by rw [hwf.1]; exact hN)]
  · intro i hi
    rw [h1, std_get_set_ne _ _ _ _ (by omega)]

/-- Instance of C9 at the iterator over `[1,2]` and `[3]`, advanced once. -/
theorem get_end_cursors_witness :
    ((make_iterator [[1, 2], [3]]).increment.wf ∧
      1 ≤ (make_iterator [[1, 2], [3]]).increment.size) ∧
    ((make_iterator [[1, 2], [3]]).increment.get_end.begin_
        = (make_iterator [[1, 2], [3]]).increment.begin_ ∧
      (make_iterator [[1, 2], [3]]).increment.get_end.end_
        = (make_iterator [[1, 2], [3]]).increment.end_ ∧
      (make_iterator [[1, 2], [3]]).increment.get_end.size
        = (make_iterator [[1, 2], [3]]).increment.size ∧
      std_get 0 (make_iterator [[1, 2], [3]]).increment.get_end.current_
        = std_get 0 (make_iterator [[1, 2], [3]]).increment.end_ ∧
      ∀ i, 1 ≤ i → std_get i (make_iterator [[1, 2], [3]]).increment.get_end.current_
        = std_get i (make_iterator [[1, 2], [3]]).increment.begin_) :=
  ⟨⟨by decide, by decide⟩,
    get_end_cursors (make_iterator [[1, 2], [3]]).increment (by decide) (by decide)⟩

/-- Instance of C8 at the fresh iterator over `[1,2]` and `[3]`: `*it` is
`(1,3)`; after `++it` the access returns `(2,3)`, also when `*it` was called
before the advance. -/
theorem dereference_stable_and_fresh_witness :
    (Reachable (make_iterator [[1, 2], [3]]) ∧
      (make_iterator [[1, 2], [3]]).equal (make_iterator [[1, 2], [3]]).get_end = false) ∧
    (make_iterator [[1, 2], [3]]).dereference.1 = [some 1, some 3] ∧
    (make_iterator [[1, 2], [3]]).dereference.2.increment.dereference.1
      = [some 2, some 3] :=
  ⟨⟨Reachable.ctor _, by decide⟩, rfl,
    ((dereference_stable_and_fresh (make_iterator [[1, 2], [3]])).2 (Reachable.ctor _)
      (by decide)).2.2.2.2⟩

/-- C10: one advance of an iterator whose index-0 cursor is not at its end.
There is an index `j` that is the largest index whose incremented cursor does
not equal its end, or `0` if there is none; for that `j`, cursor `j` is
incremented by one step, every cursor above `j` is reset to its begin and every
cursor below `j` is unchanged.  When the carry reaches index 0 and the
incremented index-0 cursor equals its end, index 0 is left at its end. -/
theorem increment_carry_chain [DecidableEq α] (it : iterator α)
    (h0 : std_get 0 it.current_ ≠ std_get 0 it.end_) (hN : 1 ≤ it.size) :
    (∃ j, j < it.size ∧
      (∀ i, j < i → i < it.size → (std_get i it.current_).succ = std_get i it.end_) ∧
      ((std_get j it.current_).succ ≠ std_get j it.end_ ∨ j = 0)) ∧
    ∀ j, j < it.size →
      (∀ i, j < i → i < it.size → (std_get i it.current_).succ = std_get i it.end_) →
      ((std_get j it.current_).succ ≠ std_get j it.end_ ∨ j = 0) →
      std_get j it.increment.current_ = (std_get j it.current_).succ ∧
      (∀ i, j < i → i < it.size → std_get i it.increment.current_ = std_get i it.begin_) ∧
      (∀ i, i < j → std_get i it.increment.current_ = std_get i it.current_) ∧
      it.increment.size = it.size ∧
      (j = 0 → (std_get 0 it.current_).succ = std_get 0 it.end_ →
        std_get 0 it.increment.current_ = std_get 0 it.end_) := by
  refine ⟨iterator.exists_stop it it.size hN, ?_⟩
  intro j hj hcarry hstop
  have key := iterator.increment_get it h0 j hj hcarry hstop
  refine ⟨?_, ?_, ?_, (iterator.increment_begin_end it).2.2, ?_⟩
  · rw [key j]; simp
  · intro i h1 h2
    rw [key i]
    simp [show ¬ i < j by omega, show i ≠ j by omega, h2]
  · intro i h1
    rw [key i]
    simp [h1]
  · intro hj0 hend
    subst hj0
    rw [key 0]
    simpa using hend

/-- Instance of C10 at the fresh iterator over `[1,2]` and `[3]`: the last
cursor overflows, so `j = 0`; index 0 moves from position 0 to 1 and index 1 is
back at its begin. -/
theorem increment_carry_chain_witness :
    (std_get 0 (make_iterator [[1, 2], [3]]).current_
        ≠ std_get 0 (make_iterator [[1, 2], [3]]).end_ ∧
      1 ≤ (make_iterator [[1, 2], [3]]).size) ∧
    std_get 0 (make_iterator [[1, 2], [3]]).increment.current_ = ⟨[1, 2], 1⟩ ∧
    std_get 1 (make_iterator [[1, 2], [3]]).increment.current_ = ⟨[3], 0⟩ :=
  have h := (increment_carry_chain (make_iterator [[1, 2], [3]]) (by decide) (by decide)).2 0
    (by decide)
    (by
      intro i h1 h2
      have h3 : i < 2 := h2
      interval_cases i
      decide)
    (Or.inr rfl)
  ⟨⟨by decide, by decide⟩, h.1, h.2.1 1 (by decide) (by decide)⟩

/-! ## Bounds are fixed, cursors stay in range -/

theorem std_get_map_cbegin (containers : List (List α)) (i : Nat) (h : i < containers.length) :
    std_get i (containers.map cbegin) = cbegin containers[i] := by
  simp [std_get, List.getD_eq_getElem?_getD, List.getElem?_eq_getElem h]

theorem std_get_map_cend (containers : List (List α)) (i : Nat) (h : i < containers.length) :
    std_get i (containers.map cend) = cend containers[i] := by
  simp [std_get, List.getD_eq_getElem?_getD, List.getElem?_eq_getElem h]

theorem ReachableFrom.bounds [DecidableEq α] {containers : List (List α)} {it : iterator α}
    (h : ReachableFrom containers it) :
    it.begin_ = containers.map cbegin ∧ it.end_ = containers.map cend := by
  induction h with
  | ctor =>
    obtain ⟨_, h2, h3, _⟩ := iterator.ctor_fields containers
    exact ⟨h2, h3⟩
  | @increment it _ ih =>
    obtain ⟨h1, h2, _⟩ := iterator.increment_begin_end it
    exact ⟨h1.trans ih.1, h2.trans ih.2⟩
  | @dereference it _ ih =>
    obtain ⟨_, h2, h3, _⟩ := iterator.dereference_fields it
    exact ⟨h2.trans ih.1, h3.trans ih.2⟩
  | @get_end it _ ih =>
    obtain ⟨_, h2, h3, _⟩ := iterator.get_end_fields it
    exact ⟨h2.trans ih.1, h3.trans ih.2⟩

theorem cursor_eq (c e : const_iterator α) (hs : c.seq = e.seq) (hp : c.pos = e.pos) :
    c = e := by
  cases c; cases e; simp_all

theorem cursor_succ_eq (c e : const_iterator α) (hs : c.seq = e.seq)
    (hp : c.pos + 1 = e.pos) : c.succ = e := by
  cases c; cases e; simp_all [const_iterator.succ]

namespace iterator

theorem in_range_ctor (containers : List (List α)) : (ctor containers).in_range := by
  obtain ⟨h1, h2, h3, _⟩ := ctor_fields containers
  intro i hi
  have hi2 : i < containers.length := by
    simpa [size, h1] using hi
  rw [h1, h2, h3, std_get_map_cbegin _ i hi2, std_get_map_cend _ i hi2]
  simp [cbegin, cend]

theorem inner_before_end_ctor (containers : List (List α))
    (hne : ∀ c ∈ containers.tail, c ≠ []) : (ctor containers).inner_before_end := by
  obtain ⟨h1, _, h3, _⟩ := ctor_fields containers
  intro i hi1 hi
  have hi2 : i < containers.length := by
    simpa [size, h1] using hi
  rw [h1, h3, std_get_map_cbegin _ i hi2, std_get_map_cend _ i hi2]
  simp only [cbegin, cend]
  apply List.length_pos.mpr
  apply hne
  cases containers with
  | nil => simp at hi2
  | cons c cs =>
    obtain ⟨m, rfl⟩ : ∃ m, i = m + 1 := ⟨i - 1, by omega⟩
    simp

variable [DecidableEq α]

theorem in_range_increment (this : iterator α) (h : this.in_range)
    (hs : this.inner_before_end) :
    this.increment.in_range ∧ this.increment.inner_before_end := by
  by_cases h0 : std_get 0 this.current_ = std_get 0 this.end_
  · rw [increment_at_end this h0]; exact ⟨h, hs⟩
  · obtain ⟨hb, he, hl⟩ := increment_begin_end this
    have hsz : this.increment.size = this.size := hl
    by_cases hN : 0 < this.size
    · obtain ⟨j, hj, hc, hst⟩ := exists_stop this this.size hN
      have key := increment_get this h0 j hj hc hst
      have hpos0 : (std_get 0 this.current_).pos < (std_get 0 this.end_).pos := by
        obtain ⟨_, q2, _, _, q5⟩ := h 0 hN
        rcases Nat.lt_or_ge (std_get 0 this.current_).pos (std_get 0 this.end_).pos with q | q
        · exact q
        · exact absurd (cursor_eq _ _ q2 (by omega)) h0
      have hposj : (std_get j this.current_).pos + 1 ≤ (std_get j this.end_).pos ∧
          (1 ≤ j → (std_get j this.current_).pos + 1 < (std_get j this.end_).pos) := by
        by_cases hj0 : j = 0
        · subst hj0
          exact ⟨hpos0, fun q => absurd q (by omega)⟩
        · have q1 := hs j (by omega) hj
          have q2 := (h j hj).2.1
          rcases hst with q3 | q3
          · have : (std_get j this.current_).pos + 1 ≠ (std_get j this.end_).pos := by
              intro q4
              exact q3 (cursor_succ_eq _ _ q2 q4)
            exact ⟨by omega, fun _ => by omega⟩
          · exact absurd q3 hj0
      have main : ∀ i, i < this.size →
          (std_get i this.increment.current_).seq = (std_get i this.end_).seq ∧
          (std_get i this.begin_).pos ≤ (std_get i this.increment.current_).pos ∧
          (std_get i this.increment.current_).pos ≤ (std_get i this.end_).pos ∧
          (1 ≤ i → (std_get i this.increment.current_).pos < (std_get i this.end_).pos) := by
        intro i hi
        obtain ⟨p1, p2, _, p4, p5⟩ := h i hi
        rw [key i]
        by_cases c1 : i < j
        · simp only [c1, if_true]
          exact ⟨p2, p4, p5, fun q => hs i q hi⟩
        · by_cases c2 : i = j
          · subst c2
            simp only [c1, if_false, if_true]
            exact ⟨p2, by simp only [const_iterator.succ]; omega, hposj.1, hposj.2⟩
          · simp only [c1, c2, hi, if_false, if_true]
            have q := hs i (by omega) hi
            exact ⟨p1, Nat.le_refl _, by omega, fun _ => by omega⟩
      constructor
      · intro i hi
        rw [hsz] at hi
        obtain ⟨p1, _, p3, _, _⟩ := h i hi
        obtain ⟨m1, m2, m3, _⟩ := main i hi
        rw [hb, he]
        exact ⟨p1, m1, p3, m2, m3⟩
      · intro i hi1 hi
        rw [hsz] at hi
        rw [he]
        exact (main i hi).2.2.2 hi1
    · constructor
      · intro i hi
        rw [hsz] at hi
        omega
      · intro i _ hi
        rw [hsz] at hi
        omega

theorem in_range_iterate (this : iterator α) (h : this.in_range)
    (hs : this.inner_before_end) (k : Nat) :
    (increment^[k] this).in_range ∧ (increment^[k] this).inner_before_end := by
  induction k with
  | zero => exact ⟨h, hs⟩
  | succ k ih =>
    rw [Function.iterate_succ_apply']
    exact in_range_increment _ ih.1 ih.2

end iterator

theorem get_end_eq_of_bounds (a b : iterator α) (hb : a.begin_ = b.begin_)
    (he : a.end_ = b.end_) : a.get_end = b.get_end := by
  simp [iterator.get_end, iterator.copy, hb, he]

theorem reachableFrom_iterate [DecidableEq α] (containers : List (List α)) (k : Nat) :
    ReachableFrom containers (iterator.increment^[k] (make_iterator containers)) := by
  induction k with
  | zero => exact ReachableFrom.ctor
  | succ k ih => rw [Function.iterate_succ_apply']; exact ReachableFrom.increment ih

theorem advance_ok_of_not_at_end [DecidableEq α] (I : Nat) : ∀ this : iterator α,
    (∀ i, i < I → std_get i this.current_ ≠ std_get i this.end_) →
    iterator.advance_ok I this = true := by
  induction I with
  | zero => intro this _; rfl
  | succ I ih =>
    intro this h
    simp only [iterator.advance_ok, Bool.and_eq_true, decide_eq_true_eq]
    refine ⟨h I (by omega), ?_⟩
    split
    · split
      · rfl
      · apply ih
        intro i hi
        simp only
        rw [std_get_set_ne _ _ _ _ (by omega), std_get_set_ne _ _ _ _ (by omega)]
        exact h i (by omega)
    · rfl

/-- In a state where index 0 is not at its end, the cursors are in range and the
inner cursors are before their ends, no cursor is at its end. -/
theorem not_at_end_of_running (it : iterator α) (hr : it.in_range)
    (hs : it.inner_before_end) (h0 : it.running) (i : Nat) (hi : i < it.size) :
    (std_get i it.current_).pos < (std_get i it.end_).pos := by
  by_cases hi0 : i = 0
  · subst hi0
    obtain ⟨_, q2, _, _, q5⟩ := hr 0 hi
    rcases Nat.lt_or_ge (std_get 0 it.current_).pos (std_get 0 it.end_).pos with q | q
    · exact q
    · exact absurd (cursor_eq _ _ q2 (by omega)) h0
  · exact hs i (by omega) hi

theorem increment_ok_of_in_range [DecidableEq α] (it : iterator α) (hr : it.in_range)
    (hs : it.inner_before_end) : it.increment_ok = true := by
  unfold iterator.increment_ok
  split
  · rfl
  · rename_i h0
    apply advance_ok_of_not_at_end
    intro i hi hce
    have := not_at_end_of_running it hr hs h0 i hi
    rw [hce] at this
    omega

theorem dereference_component (it : iterator α) (h : it.cache_ok) (i : Nat)
    (hi : i < it.size) : it.dereference.1[i]? = some (it.get i) := by
  have hi2 : i < it.current_.length := hi
  rw [dereference_value it h, iterator.make_value_type_eq, List.getElem?_map,
    List.getElem?_eq_getElem hi2]
  simp [iterator.get, std_get, List.getD_eq_getElem?_getD, List.getElem?_eq_getElem hi2]

/-! ## Main results, continued -/

/-- C11: when index 0 is not at its end and the incremented last cursor does
not equal the last end cursor, one advance moves only the last cursor, by one
step; the cursors at indices `0..N-2` are unchanged.  Holds for every `N ≥ 1`,
in particular for `N ≥ 2`. -/
theorem fast_path_moves_last_cursor_only [DecidableEq α] (it : iterator α)
    (hN : 1 ≤ it.size) (h0 : std_get 0 it.current_ ≠ std_get 0 it.end_)
    (hlast : (std_get (it.size - 1) it.current_).succ ≠ std_get (it.size - 1) it.end_) :
    it.increment.current_
      = it.current_.set (it.size - 1) (std_get (it.size - 1) it.current_).succ ∧
    std_get (it.size - 1) it.increment.current_ = (std_get (it.size - 1) it.current_).succ ∧
    (∀ i, i < it.size - 1 → std_get i it.increment.current_ = std_get i it.current_) ∧
    it.increment.size = it.size := by
  have hsz : it.size = (it.size - 1) + 1 := by omega
  have hlt : it.size - 1 < it.current_.length := by unfold iterator.size at *; omega
  have hcur : it.increment.current_
      = it.current_.set (it.size - 1) (std_get (it.size - 1) it.current_).succ := by
    rw [(iterator.increment_fields it h0).1]
    conv_lhs => rw [hsz]
    rw [iterator.advance_succ_stop _ it hlt hlast]
  refine ⟨hcur, ?_, ?_, (iterator.increment_begin_end it).2.2⟩
  · rw [hcur, std_get_set_self _ _ _ hlt]
  · intro i hi
    rw [hcur, std_get_set_ne _ _ _ _ (by omega)]

/-- Instance of C11 at the fresh iterator over `[1]` and `[2,3]`: only the last
cursor moves, from position 0 to position 1. -/
theorem fast_path_moves_last_cursor_only_witness :
    (1 ≤ (make_iterator [[1], [2, 3]]).size ∧
      std_get 0 (make_iterator [[1], [2, 3]]).current_
        ≠ std_get 0 (make_iterator [[1], [2, 3]]).end_ ∧
      (std_get ((make_iterator [[1], [2, 3]]).size - 1)
          (make_iterator [[1], [2, 3]]).current_).succ
        ≠ std_get ((make_iterator [[1], [2, 3]]).size - 1)
          (make_iterator [[1], [2, 3]]).end_) ∧
    (make_iterator [[1], [2, 3]]).increment.current_ = [⟨[1], 0⟩, ⟨[2, 3], 1⟩] :=
  ⟨⟨by decide, by decide, by decide⟩,
    (fast_path_moves_last_cursor_only (make_iterator [[1], [2, 3]]) (by decide) (by decide)
      (by decide)).1⟩

/-- C12: the begin and end cursors are unchanged by `advance<I>`, `operator++`,
`operator*` and `get_end()` (`get<I>()` only reads and returns an element); so
in every state reached from construction by these operations, the begin and end
cursors at index `i` are the begin and end of the `i`-th constructor
argument. -/
theorem bounds_never_change [DecidableEq α] (it : iterator α) (containers : List (List α))
    (st : iterator α) (h : ReachableFrom containers st) :
    ((∀ I, (iterator.advance I it).begin_ = it.begin_ ∧ (iterator.advance I it).end_ = it.end_) ∧
      (it.increment.begin_ = it.begin_ ∧ it.increment.end_ = it.end_) ∧
      (it.dereference.2.begin_ = it.begin_ ∧ it.dereference.2.end_ = it.end_) ∧
      (it.get_end.begin_ = it.begin_ ∧ it.get_end.end_ = it.end_)) ∧
    (st.begin_ = containers.map cbegin ∧ st.end_ = containers.map cend) ∧
    ∀ i (hi : i < containers.length),
      std_get i st.begin_ = cbegin containers[i] ∧ std_get i st.end_ = cend containers[i] := by
  refine ⟨⟨?_, ?_, ?_, ?_⟩, h.bounds, ?_⟩
  · intro I
    exact ⟨(iterator.advance_frame I it).1, (iterator.advance_frame I it).2.1⟩
  · exact ⟨(iterator.increment_begin_end it).1, (iterator.increment_begin_end it).2.1⟩
  · exact ⟨(iterator.dereference_fields it).2.1, (iterator.dereference_fields it).2.2.1⟩
  · exact ⟨(iterator.get_end_fields it).2.1, (iterator.get_end_fields it).2.2.1⟩
  · intro i hi
    rw [h.bounds.1, h.bounds.2]
    exact ⟨std_get_map_cbegin _ i hi, std_get_map_cend _ i hi⟩

/-- Instance of C12: after `++`, `*` and `get_end()` on the iterator over
`[1,2]` and `[3]`, the bounds are still those of `[1,2]` and `[3]`. -/
theorem bounds_never_change_witness :
    ReachableFrom [[1, 2], [3]] (make_iterator [[1, 2], [3]]).increment.dereference.2.get_end ∧
    (make_iterator [[1, 2], [3]]).increment.dereference.2.get_end.begin_
      = [cbegin [1, 2], cbegin [3]] ∧
    (make_iterator [[1, 2], [3]]).increment.dereference.2.get_end.end_
      = [cend [1, 2], cend [3]] :=
  ⟨ReachableFrom.get_end (ReachableFrom.dereference (ReachableFrom.increment ReachableFrom.ctor)),
    (bounds_never_change (make_iterator [[1, 2], [3]]) [[1, 2], [3]] _
      (ReachableFrom.get_end
        (ReachableFrom.dereference (ReachableFrom.increment ReachableFrom.ctor)))).2.1⟩

/-- C13 as stated fails on two empty sequences: right after construction the
index-1 current cursor equals the index-1 end cursor, although `1 ≠ 0`. -/
theorem inner_cursor_at_end_after_construction :
    ¬ (∀ i, i < 2 →
        std_get i (iterator.increment^[0] (make_iterator [[], ([] : List Nat)])).current_
          = std_get i (iterator.increment^[0] (make_iterator [[], ([] : List Nat)])).end_ →
        i = 0) := by
  intro h
  have h1 := h 1 (by decide) (by decide)
  omega

/-- C13, amended: when the first sequence is empty or no sequence at an index
`≥ 1` is empty, in every state reached from construction by advances the
cursors at index `i` point into the `i`-th sequence, the current cursor lies
between begin and end inclusive, and it equals the end cursor only if `i = 0`
or the `i`-th sequence is empty. -/
theorem cursors_stay_in_range [DecidableEq α] (containers : List (List α))
    (hne : containers.head? = some [] ∨ ∀ c ∈ containers.tail, c ≠ [])
    (k : Nat) (i : Nat) (hi : i < containers.length) :
    std_get i (iterator.increment^[k] (make_iterator containers)).begin_
      = cbegin containers[i] ∧
    std_get i (iterator.increment^[k] (make_iterator containers)).end_
      = cend containers[i] ∧
    (std_get i (iterator.increment^[k] (make_iterator containers)).current_).seq
      = containers[i] ∧
    (std_get i (iterator.increment^[k] (make_iterator containers)).begin_).pos
      ≤ (std_get i (iterator.increment^[k] (make_iterator containers)).current_).pos ∧
    (std_get i (iterator.increment^[k] (make_iterator containers)).current_).pos
      ≤ (std_get i (iterator.increment^[k] (make_iterator containers)).end_).pos ∧
    (std_get i (iterator.increment^[k] (make_iterator containers)).current_
        = std_get i (iterator.increment^[k] (make_iterator containers)).end_ →
      i = 0 ∨ containers[i] = []) := by
  obtain ⟨hb, he⟩ := (reachableFrom_iterate containers k).bounds
  have hsz : (iterator.increment^[k] (make_iterator containers)).size = containers.length := by
    rw [(iterator.iterate_begin_end _ k).2.2]
    simp [iterator.size, make_iterator, (iterator.ctor_fields containers).1]
  have hbi := std_get_map_cbegin containers i hi
  have hei := std_get_map_cend containers i hi
  rcases hne with hfirst | htail
  · -- the first sequence is empty: the iterator never leaves its initial state
    have hend : std_get 0 (make_iterator containers).current_
        = std_get 0 (make_iterator containers).end_ := by
      cases containers with
      | nil => simp at hi
      | cons c cs =>
        have hc : c = [] := by simpa using hfirst
        subst hc
        simp [make_iterator, (iterator.ctor_fields ([] :: cs)).1,
          (iterator.ctor_fields ([] :: cs)).2.2.1, std_get, cbegin, cend]
    rw [iterator.increment_iterate_at_end _ hend k]
    unfold make_iterator
    rw [(iterator.ctor_fields containers).1, (iterator.ctor_fields containers).2.1,
      (iterator.ctor_fields containers).2.2.1, hbi, hei]
    refine ⟨rfl, rfl, rfl, Nat.le_refl _, Nat.zero_le _, ?_⟩
    intro hce
    right
    have : (0 : Nat) = containers[i].length := by
      simpa [cbegin, cend] using hce
    exact List.length_eq_zero.mp this.symm
  · obtain ⟨hr, hs⟩ := iterator.in_range_iterate (make_iterator containers)
      (iterator.in_range_ctor containers) (iterator.inner_before_end_ctor containers htail) k
    obtain ⟨_, p2, _, p4, p5⟩ := hr i (by rw [hsz]; exact hi)
    have hs1 := hs i
    rw [hb, hbi] at p4
    rw [he, hei] at p2 p5 hs1
    rw [hb, he, hbi, hei]
    refine ⟨rfl, rfl, ?_, p4, p5, ?_⟩
    · rw [p2]; rfl
    · intro hce
      left
      by_contra hi0
      have := hs1 (by omega) (by rw [hsz]; exact hi)
      rw [hce] at this
      omega

/-- Instance of the amended C13 at the iterator over `[1,2]` and `[3]` after two
advances (its end state), index 0. -/
theorem cursors_stay_in_range_witness :
    ((([[1, 2], [3]] : List (List Nat)).head? = some [] ∨
        ∀ c ∈ ([[1, 2], [3]] : List (List Nat)).tail, c ≠ []) ∧
      0 < ([[1, 2], [3]] : List (List Nat)).length) ∧
    (std_get 0 (iterator.increment^[2] (make_iterator [[1, 2], [3]])).current_).pos
      ≤ (std_get 0 (iterator.increment^[2] (make_iterator [[1, 2], [3]])).end_).pos :=
  ⟨⟨Or.inr (by simp), by decide⟩,
    (cursors_stay_in_range [[1, 2], [3]] (Or.inr (by simp)) 2 0 (by decide)).2.2.2.2.1⟩

/-- C14: in every state reachable by construction, advance, whole-tuple access,
copy construction, assignment and `get_end()`, the cache is absent or equal to
the tuple of elements under the current cursors. -/
theorem cache_never_stale [DecidableEq α] (it : iterator α) (h : Reachable it) :
    it.current_tuple_ = none ∨
      it.current_tuple_ = some (it.current_.map const_iterator.deref) := by
  cases hc : it.current_tuple_ with
  | none => exact Or.inl rfl
  | some v =>
    right
    rw [h.cache_ok v hc, iterator.make_value_type_eq]

/-- Instance of C14: after `*it`, `++it`, `*it` on the iterator over `[1,2]` and
`[3]` the cache holds `(2,3)`, the elements under the current cursors. -/
theorem cache_never_stale_witness :
    Reachable (make_iterator [[1, 2], [3]]).dereference.2.increment.dereference.2 ∧
    ((make_iterator [[1, 2], [3]]).dereference.2.increment.dereference.2.current_tuple_ = none ∨
      (make_iterator [[1, 2], [3]]).dereference.2.increment.dereference.2.current_tuple_
        = some ((make_iterator [[1, 2], [3]]).dereference.2.increment.dereference.2.current_.map
            const_iterator.deref)) :=
  ⟨Reachable.dereference (Reachable.increment (Reachable.dereference (Reachable.ctor _))),
    cache_never_stale _
      (Reachable.dereference (Reachable.increment (Reachable.dereference (Reachable.ctor _))))⟩

/-- C15: the copy of `s`, and any iterator `t` after `t = s`, has the current,
begin and end cursors of `s` and no cache, whatever the cache of `s` and the
previous state of `t`. -/
theorem copy_and_assign_take_cursors_not_cache (s t : iterator α) :
    (s.copy.current_ = s.current_ ∧ s.copy.begin_ = s.begin_ ∧ s.copy.end_ = s.end_ ∧
      s.copy.current_tuple_ = none) ∧
    ((t.assign s).current_ = s.current_ ∧ (t.assign s).begin_ = s.begin_ ∧
      (t.assign s).end_ = s.end_ ∧ (t.assign s).current_tuple_ = none) :=
  ⟨⟨rfl, rfl, rfl, rfl⟩, iterator.assign_fields t s⟩

/-- C16: the freshly constructed iterator equals its own `get_end()` exactly
when the first sequence is empty; the sequences at indices `1..N-1` do not
influence the comparison. -/
theorem fresh_at_end_iff_first_empty [DecidableEq α] (c : List α) (cs cs2 : List (List α)) :
    ((make_iterator (c :: cs)).equal (make_iterator (c :: cs)).get_end = true ↔ c = []) ∧
    (make_iterator (c :: cs)).equal (make_iterator (c :: cs)).get_end
      = (make_iterator (c :: cs2)).equal (make_iterator (c :: cs2)).get_end := by
  have key : ∀ t : List (List α),
      ((make_iterator (c :: t)).equal (make_iterator (c :: t)).get_end = true ↔ c = []) := by
    intro t
    obtain ⟨h1, h2, h3, _⟩ := iterator.ctor_fields (c :: t)
    simp only [make_iterator, iterator.equal, (iterator.get_end_fields _).1, h1, h2, h3,
      decide_eq_true_eq]
    simp only [List.map_cons, List.set_cons_zero, std_get, List.getD_cons_zero, List.cons.injEq,
      and_true, cbegin, cend, const_iterator.mk.injEq, true_and]
    constructor
    · intro h; exact List.length_eq_zero.mp h.symm
    · intro h; rw [h]; rfl
  refine ⟨key cs, ?_⟩
  rw [Bool.eq_iff_iff, key cs, key cs2]

/-- C18: the end iterator depends only on the bounds: `get_end()` after an
advance (after any number of advances) is the `get_end()` from before, and
`get_end()` of the end iterator is the end iterator; they compare equal. -/
theorem get_end_depends_on_bounds_only [DecidableEq α] (it : iterator α) :
    (it.increment.get_end = it.get_end ∧ it.increment.get_end.equal it.get_end = true) ∧
    (∀ k, (iterator.increment^[k] it).get_end = it.get_end) ∧
    (it.get_end.get_end = it.get_end ∧ it.get_end.get_end.equal it.get_end = true) := by
  have h1 : it.increment.get_end = it.get_end :=
    get_end_eq_of_bounds _ _ (iterator.increment_begin_end it).1
      (iterator.increment_begin_end it).2.1
  have h2 : it.get_end.get_end = it.get_end :=
    get_end_eq_of_bounds _ _ (iterator.get_end_fields it).2.1 (iterator.get_end_fields it).2.2.1
  refine ⟨⟨h1, ?_⟩, ?_, h2, ?_⟩
  · rw [h1]; simp [iterator.equal]
  · intro k
    exact get_end_eq_of_bounds _ _ (iterator.iterate_begin_end it k).1
      (iterator.iterate_begin_end it k).2.1
  · rw [h2]; simp [iterator.equal]

/-- C17: over non-empty sequences, in every state reached from construction by
advances that does not equal `get_end()`, every current cursor points into its
sequence strictly before the end, so `get<i>()` and component `i` of `operator*`
read an element of the sequence (never the out-of-range `none`); and in every
state reached by advances, `operator++` only increments cursors that are not at
their end. -/
theorem nonempty_sequences_read_in_range [DecidableEq α] (containers : List (List α))
    (hne : ∀ c ∈ containers, c ≠ []) (k : Nat)
    (hnot : (iterator.increment^[k] (make_iterator containers)).equal
      (iterator.increment^[k] (make_iterator containers)).get_end = false) :
    (∀ i (hi : i < containers.length),
      (std_get i (iterator.increment^[k] (make_iterator containers)).current_).seq
        = containers[i] ∧
      (std_get i (iterator.increment^[k] (make_iterator containers)).current_).pos
        < (std_get i (iterator.increment^[k] (make_iterator containers)).end_).pos ∧
      (std_get i (iterator.increment^[k] (make_iterator containers)).current_).pos
        < containers[i].length ∧
      ∃ x, x ∈ containers[i] ∧
        (iterator.increment^[k] (make_iterator containers)).get i = some x ∧
        (iterator.increment^[k] (make_iterator containers)).dereference.1[i]?
          = some (some x)) ∧
    (iterator.increment^[k] (make_iterator containers)).increment_ok = true ∧
    ∀ m, (iterator.increment^[m] (make_iterator containers)).increment_ok = true := by
  have htail : ∀ c ∈ containers.tail, c ≠ [] := fun c hc => hne c (List.mem_of_mem_tail hc)
  have hinv : ∀ m, (iterator.increment^[m] (make_iterator containers)).in_range ∧
      (iterator.increment^[m] (make_iterator containers)).inner_before_end := fun m =>
    iterator.in_range_iterate (make_iterator containers)
      (iterator.in_range_ctor containers) (iterator.inner_before_end_ctor containers htail) m
  refine ⟨?_, increment_ok_of_in_range _ (hinv k).1 (hinv k).2,
    fun m => increment_ok_of_in_range _ (hinv m).1 (hinv m).2⟩
  intro i hi
  have hreach : Reachable (iterator.increment^[k] (make_iterator containers)) :=
    reachable_iterate _ (Reachable.ctor containers) k
  have hrun : (iterator.increment^[k] (make_iterator containers)).running := by
    intro h0
    have := (equal_get_end_iff _ hreach.wf hreach.tail_at_begin).mpr h0
    rw [hnot] at this
    exact Bool.false_ne_true this
  have hsz : (iterator.increment^[k] (make_iterator containers)).size = containers.length := by
    rw [(iterator.iterate_begin_end _ k).2.2]
    simp [iterator.size, make_iterator, (iterator.ctor_fields containers).1]
  have hi2 : i < (iterator.increment^[k] (make_iterator containers)).size := by
    rw [hsz]; exact hi
  have hlt := not_at_end_of_running _ (hinv k).1 (hinv k).2 hrun i hi2
  obtain ⟨_, p2, _, _, _⟩ := (hinv k).1 i hi2
  have he := (reachableFrom_iterate containers k).bounds.2
  have hei := std_get_map_cend containers i hi
  rw [he, hei] at p2 hlt
  have hseq : (std_get i (iterator.increment^[k] (make_iterator containers)).current_).seq
      = containers[i] := by rw [p2]; rfl
  have hpos : (std_get i (iterator.increment^[k] (make_iterator containers)).current_).pos
      < containers[i].length := hlt
  have hpos2 : (std_get i (iterator.increment^[k] (make_iterator containers)).current_).pos
      < (std_get i (iterator.increment^[k] (make_iterator containers)).current_).seq.length := by
    rw [hseq]; exact hpos
  have hget : (iterator.increment^[k] (make_iterator containers)).get i
      = some ((std_get i (iterator.increment^[k] (make_iterator containers)).current_).seq[
          (std_get i (iterator.increment^[k] (make_iterator containers)).current_).pos]) := by
    simp only [iterator.get, const_iterator.deref]
    exact List.getElem?_eq_getElem hpos2
  refine ⟨hseq, ?_, hpos, _, ?_, hget, ?_⟩
  · rw [he, hei]; exact hlt
  · have aux : ∀ (l : List α) (y : α), l = containers[i] → y ∈ l → y ∈ containers[i] := by
      intro l y hl hy
      rw [← hl]; exact hy
    exact aux _ _ hseq (List.getElem_mem hpos2)
  · rw [dereference_component _ hreach.cache_ok i hi2, hget]

/-- Instance of C17 at the iterator over `[1,2]` and `[3]` after one advance
(cursors at positions `(1,0)`, not the end). -/
theorem nonempty_sequences_read_in_range_witness :
    ((∀ c ∈ ([[1, 2], [3]] : List (List Nat)), c ≠ []) ∧
      (iterator.increment^[1] (make_iterator [[1, 2], [3]])).equal
        (iterator.increment^[1] (make_iterator [[1, 2], [3]])).get_end = false) ∧
    (iterator.increment^[1] (make_iterator [[1, 2], [3]])).increment_ok = true :=
  ⟨⟨by simp, by decide⟩,
    (nonempty_sequences_read_in_range [[1, 2], [3]] (by simp) 1 (by decide)).2.1⟩

end cartesian_product
